import Mathlib

/-!
Shallow embedding of the Minesweeper inference agent (minesweeper.py):
the Sentence constraint type, the MinesweeperAI state with its
mark/infer/add_knowledge operations, and the board oracle used to define
consistency of observation traces.  Python sets are modelled as Finset,
Python ints as Int, and the in-place mutation of sentences inside the
knowledge list as index-threaded state updates that follow the source's
loop structure statement by statement.
-/

/-- A board cell: an ordered pair (row, column) of integers. -/
abbrev Cell : Type := Int × Int

/-- Row-major comparison of cells, used as one concrete realisation of
Python's unspecified set-iteration order where a single representative
element must be picked. -/
def cellLe (a b : Cell) : Prop := a.1 < b.1 ∨ (a.1 = b.1 ∧ a.2 ≤ b.2)

instance : DecidableRel cellLe := by
  intro a b; unfold cellLe; infer_instance

instance : IsTrans Cell cellLe := by
  constructor; intro a b c hab hbc
  rcases hab with h | ⟨h1, h2⟩ <;> rcases hbc with h' | ⟨h1', h2'⟩ <;>
    unfold cellLe <;> omega

instance : IsAntisymm Cell cellLe := by
  constructor; intro a b hab hba
  rcases hab with h | ⟨h1, h2⟩ <;> rcases hba with h' | ⟨h1', h2'⟩ <;>
    [omega; omega; omega; exact Prod.ext h1 (le_antisymm h2 h2')]

instance : IsTotal Cell cellLe := by
  constructor; intro a b; unfold cellLe; omega

/-- `Sentence`: a set of board cells and a count of how many of them are mines. -/
structure Sentence where
  cells : Finset Cell
  count : Int

instance : DecidableEq Sentence := fun s t =>
  decidable_of_iff (s.cells = t.cells ∧ s.count = t.count)
    (by cases s; cases t; simp)

instance : Inhabited Sentence := ⟨⟨∅, 0⟩⟩

namespace Sentence

/-- `Sentence.known_mines`: all cells if `count == len(cells)`, else empty. -/
def known_mines (s : Sentence) : Finset Cell :=
  if s.count = (s.cells.card : Int) then s.cells else ∅

/-- `Sentence.known_safes`: all cells if `count == 0`, else empty. -/
def known_safes (s : Sentence) : Finset Cell :=
  if s.count = 0 then s.cells else ∅

/-- `Sentence.mark_mine`: if the cell is present, remove it and decrement count. -/
def mark_mine (s : Sentence) (cell : Cell) : Sentence :=
  if cell ∈ s.cells then ⟨s.cells.erase cell, s.count - 1⟩ else s

/-- `Sentence.mark_safe`: if the cell is present, remove it (count unchanged). -/
def mark_safe (s : Sentence) (cell : Cell) : Sentence :=
  if cell ∈ s.cells then ⟨s.cells.erase cell, s.count⟩ else s

end Sentence

/-- The `MinesweeperAI` state: grid dimensions, moves made, known mines and
safes, the knowledge list of sentences, and the `pending_cells` counter. -/
structure AIState where
  height : Nat
  width : Nat
  moves_made : Finset Cell
  mines : Finset Cell
  safes : Finset Cell
  knowledge : List Sentence
  pending_cells : Int

instance : DecidableEq AIState := fun s t =>
  decidable_of_iff (s.height = t.height ∧ s.width = t.width ∧ s.moves_made = t.moves_made ∧
      s.mines = t.mines ∧ s.safes = t.safes ∧ s.knowledge = t.knowledge ∧
      s.pending_cells = t.pending_cells)
    (by cases s; cases t; simp)

instance : DecidableEq (Option AIState) := fun a b =>
  match a, b with
  | none, none => isTrue rfl
  | some x, some y => decidable_of_iff (x = y) (by simp)
  | none, some _ => isFalse (by simp)
  | some _, none => isFalse (by simp)

namespace AIState

/-- `MinesweeperAI.__init__(height, width)`. -/
def init (height width : Nat) : AIState :=
  ⟨height, width, ∅, ∅, ∅, [], (height : Int) * (width : Int)⟩

/-- `MinesweeperAI.mark_mine`: add to `self.mines`, then update every sentence. -/
def mark_mine (s : AIState) (cell : Cell) : AIState :=
  { s with mines := insert cell s.mines,
           knowledge := s.knowledge.map (fun st => st.mark_mine cell) }

/-- `MinesweeperAI.mark_safe`: add to `self.safes`, then update every sentence. -/
def mark_safe (s : AIState) (cell : Cell) : AIState :=
  { s with safes := insert cell s.safes,
           knowledge := s.knowledge.map (fun st => st.mark_safe cell) }

/-- Iterated `mark_mine` over a list of cells (`for mn in ...: self.mark_mine(mn)`). -/
def mark_mine_all (s : AIState) (cs : List Cell) : AIState :=
  cs.foldl mark_mine s

/-- Iterated `mark_safe` over a list of cells (`for sf in ...: self.mark_safe(sf)`). -/
def mark_safe_all (s : AIState) (cs : List Cell) : AIState :=
  cs.foldl mark_safe s

/-- `self.mark_mine(mn)` iterated over the members of a set: because Python's
set-iteration order is unspecified and the individual `mark_mine` calls
commute, the harvest is modelled as the simultaneous update it denotes. -/
def mark_mine_set (s : AIState) (cs : Finset Cell) : AIState :=
  { s with mines := s.mines ∪ cs,
           knowledge := s.knowledge.map (fun st =>
             ⟨st.cells \ cs, st.count - ((st.cells ∩ cs).card : Int)⟩) }

/-- `self.mark_safe(sf)` iterated over the members of a set, as the
simultaneous update the unordered iteration denotes. -/
def mark_safe_set (s : AIState) (cs : Finset Cell) : AIState :=
  { s with safes := s.safes ∪ cs,
           knowledge := s.knowledge.map (fun st => ⟨st.cells \ cs, st.count⟩) }

/-- `MinesweeperAI.nearby_cells`: the in-bounds neighbours of a cell, in the
source's row-major iteration order, the cell itself excluded. -/
def nearby_cells (s : AIState) (cell : Cell) : List Cell :=
  ([cell.1 - 1, cell.1, cell.1 + 1].map (fun i =>
    ([cell.2 - 1, cell.2, cell.2 + 1].filterMap (fun j =>
      if (i, j) = cell ∨ i < 0 ∨ j < 0 ∨ (s.height : Int) ≤ i ∨ (s.width : Int) ≤ j then
        none
      else
        some (i, j))))).flatten

end AIState

/-- `MinesweeperAI.removing_duplicates`: if the item occurs more than once in
the knowledge list, every occurrence after the first is emptied in place. -/
def removing_duplicates (item : Sentence) (k : List Sentence) : List Sentence :=
  if 1 < k.count item then
    (go k).2
  else k
where
  /-- Walk the list keeping the first occurrence of `item`, emptying the rest;
  the flag records whether an occurrence has been seen yet. -/
  go : List Sentence → Bool × List Sentence
    | [] => (false, [])
    | x :: xs =>
      if x = item then
        (true, x :: xs.map (fun y => if y = item then ⟨∅, 0⟩ else y))
      else
        let r := go xs
        (r.1, x :: r.2)

/-- Intermediate state of one `infer_multiple_sentences` pass: the agent
(whose knowledge list keeps a constant length during the pass), the values
collected in `empty_sets`, and the `newSelf_knowledge` accumulator. -/
structure PassState where
  ai : AIState
  empties : List Sentence
  newK : List Sentence

instance : DecidableEq PassState := fun s t =>
  decidable_of_iff (s.ai = t.ai ∧ s.empties = t.empties ∧ s.newK = t.newK)
    (by cases s; cases t; simp)

/-- One iteration of the inner `for nextSentence in self.knowledge` loop of
`infer_multiple_sentences`, with `i` the outer index and `j` the inner index;
sentence values are re-read from the current knowledge list as in the source,
where the loop variables alias mutable list elements. -/
def resolvePair (i : Nat) (ps : PassState) (j : Nat) : PassState :=
  let si := ps.ai.knowledge.getD i default
  let sj := ps.ai.knowledge.getD j default
  if si = sj then ps
  else if si.cells ⊆ sj.cells ∨ sj.cells ⊆ si.cells then
    let newCells := if si.cells ⊆ sj.cells then sj.cells \ si.cells else si.cells \ sj.cells
    let leftoverIdx := if si.cells ⊆ sj.cells then i else j
    if newCells ≠ ∅ then
      let newCount : Int := |sj.count - si.count|
      let ns : Sentence := ⟨newCells, newCount⟩
      if (newCells.card : Int) = newCount ∨ newCount = 0 then
        let ai1 := ps.ai.mark_safe_set ns.known_safes
        let ai2 := ai1.mark_mine_set ns.known_mines
        let leftoverVal := ai2.knowledge.getD leftoverIdx default
        { ps with ai := { ai2 with knowledge := removing_duplicates leftoverVal ai2.knowledge } }
      else if ns ∈ ps.ai.knowledge ∨ ns ∈ ps.newK then ps
      else { ps with newK := ps.newK ++ [ns] }
    else ps
  else ps

/-- One iteration of the outer `for sentence in self.knowledge` loop of
`infer_multiple_sentences`: the empty-cells shortcut, the harvest of a
determined sentence (whose `known_mines` snapshot is taken after the
`known_safes` marking, as in the source), then the inner pair loop. -/
def outerStep (n : Nat) (ps : PassState) (i : Nat) : PassState :=
  let si := ps.ai.knowledge.getD i default
  if si.cells = ∅ then { ps with empties := ps.empties ++ [si] }
  else
    let ps1 :=
      if si.count = 0 ∨ (si.cells.card : Int) = si.count then
        let ai1 := ps.ai.mark_safe_set si.known_safes
        let si1 := ai1.knowledge.getD i default
        let ai2 := ai1.mark_mine_set si1.known_mines
        let si2 := ai2.knowledge.getD i default
        { ps with ai := ai2, empties := ps.empties ++ [si2] }
      else ps
    (List.range n).foldl (resolvePair i) ps1

/-- The two nested loops of `MinesweeperAI.infer_multiple_sentences`: fold the
outer step over the indices of the knowledge list (whose length is constant
during a pass). -/
def inferPassAux (s : AIState) : PassState :=
  (List.range s.knowledge.length).foldl (outerStep s.knowledge.length) ⟨s, [], []⟩

/-- `MinesweeperAI.infer_multiple_sentences`: one full pass; returns the
updated agent (with the `empty_sets` values removed from knowledge at the
end, first value-equal occurrence each) and the `newSelf_knowledge` list. -/
def inferPass (s : AIState) : AIState × List Sentence :=
  ({ (inferPassAux s).ai with
      knowledge := (inferPassAux s).empties.foldl (fun k v => k.erase v)
        (inferPassAux s).ai.knowledge },
   (inferPassAux s).newK)

namespace AIState

/-- The observation-processing part of `MinesweeperAI.add_knowledge`
(everything before the `while True` propagation loop): record the move, mark
the probed cell safe, decrement `pending_cells`, then either the count-zero
shortcut, the all-neighbours-mines shortcut, or the partition of neighbours
into a new sentence appended unless already present. -/
def add_knowledge_base (s : AIState) (cell : Cell) (count : Int) : AIState :=
  let s1 := { s with moves_made := insert cell s.moves_made }
  let s2 := s1.mark_safe cell
  let s3 := { s2 with pending_cells := s2.pending_cells - 1 }
  let neigh := s3.nearby_cells cell
  if count = 0 then
    s3.mark_safe_all neigh
  else if (neigh.length : Int) = count then
    s3.mark_mine_all neigh
  else
    let p := neigh.foldl (fun (p : Finset Cell × Int) nb =>
      if nb ∈ s3.mines then (p.1, p.2 - 1)
      else if nb ∈ s3.moves_made ∨ nb ∈ s3.safes then p
      else (insert nb p.1, p.2)) (∅, count)
    let ns : Sentence := ⟨p.1, p.2⟩
    if ns ∈ s3.knowledge then s3 else { s3 with knowledge := s3.knowledge ++ [ns] }

/-- The `while True` propagation loop of `add_knowledge`, run with explicit
fuel on the number of passes: each pass calls `infer_multiple_sentences` and
either appends the newly derived sentences and loops, or breaks. -/
def add_knowledge_loop : Nat → AIState → AIState
  | 0, s => s
  | fuel + 1, s =>
    if (inferPass s).2.isEmpty then (inferPass s).1
    else add_knowledge_loop fuel
      { (inferPass s).1 with knowledge := (inferPass s).1.knowledge ++ (inferPass s).2 }

/-- Same loop, but distinguishing running out of fuel (`none`) from a pass
that produced no new sentences and broke out (`some`). -/
def add_knowledge_loopO : Nat → AIState → Option AIState
  | 0, _ => none
  | fuel + 1, s =>
    if (inferPass s).2.isEmpty then some (inferPass s).1
    else add_knowledge_loopO fuel
      { (inferPass s).1 with knowledge := (inferPass s).1.knowledge ++ (inferPass s).2 }

/-- `MinesweeperAI.add_knowledge`, with explicit fuel for the propagation loop. -/
def add_knowledge (fuel : Nat) (s : AIState) (cell : Cell) (count : Int) : AIState :=
  add_knowledge_loop fuel (s.add_knowledge_base cell count)

/-- `MinesweeperAI.make_safe_move`: iterate `safes.difference(moves_made)` and
return the first cell not in `mines` and not in `moves_made`, else `None`. -/
def make_safe_move (s : AIState) : Option Cell :=
  ((s.safes \ s.moves_made).sort cellLe).find?
    (fun m => decide (m ∉ s.mines ∧ m ∉ s.moves_made))

/-- `MinesweeperAI.make_random_move`, with the unbounded stream of
`random.randrange` draws made explicit as a list: while
`pending_cells - len(mines) > 0`, consume draws until one is neither a known
mine nor a move already made; `some none` models the `return None` exit,
`some (some c)` a returned move, and `none` exhaustion of the supplied draws
with the loop still running. -/
def make_random_move (s : AIState) : List Cell → Option (Option Cell)
  | [] => if s.pending_cells - (s.mines.card : Int) > 0 then none else some none
  | d :: rest =>
    if s.pending_cells - (s.mines.card : Int) > 0 then
      if d ∉ s.mines ∧ d ∉ s.moves_made then some (some d)
      else make_random_move s rest
    else some none

/-- Run a list of `(cell, count)` observations through `add_knowledge`,
each call given the same propagation-loop fuel. -/
def runTrace (fuel : Nat) (s : AIState) : List (Cell × Int) → AIState
  | [] => s
  | p :: rest => runTrace fuel (s.add_knowledge fuel p.1 p.2) rest

/-- Run a list of observations with the fuel-exhaustion-aware loop: `none`
as soon as one propagation loop fails to break out within the given fuel. -/
def runTraceO (fuel : Nat) (s : AIState) : List (Cell × Int) → Option AIState
  | [] => some s
  | p :: rest =>
    (add_knowledge_loopO fuel (s.add_knowledge_base p.1 p.2)).bind
      (fun t => runTraceO fuel t rest)

end AIState

/-- The Minesweeper board: dimensions and the set of mine cells
(`board[i][j]` is true exactly for members of `mines`). -/
structure Board where
  height : Nat
  width : Nat
  mines : Finset Cell

namespace Board

/-- A cell lies inside the board's grid. -/
def inGrid (b : Board) (cell : Cell) : Prop :=
  0 ≤ cell.1 ∧ cell.1 < (b.height : Int) ∧ 0 ≤ cell.2 ∧ cell.2 < (b.width : Int)

instance (b : Board) (cell : Cell) : Decidable (b.inGrid cell) := by
  unfold inGrid; infer_instance

/-- `Minesweeper.nearby_mines`: the number of mines within one row and column
of a cell, the cell itself excluded, out-of-bounds positions ignored. -/
def nearby_mines (b : Board) (cell : Cell) : Int :=
  ((([cell.1 - 1, cell.1, cell.1 + 1].map (fun i =>
      [(i, cell.2 - 1), (i, cell.2), (i, cell.2 + 1)])).flatten).filter
    (fun p => decide (p ≠ cell ∧ b.inGrid p ∧ p ∈ b.mines))).length

/-- All mines lie inside the grid (true of every board the game constructs). -/
def Wf (b : Board) : Prop :=
  ∀ m ∈ b.mines, b.inGrid m

instance (b : Board) : Decidable b.Wf := by
  unfold Wf; infer_instance

/-- A trace of observations is consistent with a real board: every probed
cell is an in-grid non-mine cell and the reported count is the true
neighbouring-mine count. -/
def consistentTrace (b : Board) (tr : List (Cell × Int)) : Prop :=
  ∀ p ∈ tr, b.inGrid p.1 ∧ p.1 ∉ b.mines ∧ p.2 = b.nearby_mines p.1

instance (b : Board) (tr : List (Cell × Int)) : Decidable (b.consistentTrace tr) := by
  unfold consistentTrace; infer_instance

end Board

/-! ## Semantic notions and concrete states used by the verification -/

def wit7 : AIState := ⟨2, 2, ∅, ∅, ∅, [⟨{(0,0),(0,1)}, 1⟩, ⟨{(1,1)}, 1⟩], 4⟩

def wit8 : AIState := ⟨1, 2, ∅, ∅, {(0,1)}, [], 2⟩

def stC3 : AIState := ⟨1, 2, {(0,0)}, ∅, {(0,0), (0,1)}, [], 0⟩

def c3witA : AIState := ⟨1, 2, ∅, ∅, ∅, [], 2⟩
def c3witB : AIState := ⟨1, 2, ∅, ∅, ∅, [], 0⟩

def stC4 : AIState := ⟨1, 4, {(0,3)}, ∅, {(0,2), (0,3)}, [], 3⟩

/-- The board underlying the C2 trace: 6×5 with three mines. -/
def bC2 : Board := ⟨6, 5, {(1,1), (2,0), (3,2)}⟩

/-- A sequence of observations, each consistent with `bC2`. -/
def trC2 : List (Cell × Int) :=
  [((5,0),0), ((5,1),0), ((5,2),0), ((5,3),0), ((5,4),0), ((4,0),0),
   ((0,4),0), ((1,4),0), ((2,4),0), ((3,4),0),
   ((2,1),3), ((2,3),1), ((3,1),2), ((3,3),1)]

/-- The agent state after running `trC2` through `add_knowledge`. -/
def c2s14 : AIState :=
  ⟨6, 5,
   {(0,4), (1,4), (2,1), (2,3), (2,4), (3,1), (3,3), (3,4), (4,0),
    (5,0), (5,1), (5,2), (5,3), (5,4)},
   {(2,0)},
   {(0,3), (0,4), (1,2), (1,3), (1,4), (2,1), (2,3), (2,4), (3,0), (3,1),
    (3,3), (3,4), (4,0), (4,1), (4,2), (4,3), (4,4),
    (5,0), (5,1), (5,2), (5,3), (5,4)},
   [⟨{(1,0), (1,1), (2,2), (3,2)}, 2⟩,
    ⟨{(2,2), (3,2)}, 1⟩,
    ⟨{(1,0), (1,1)}, 1⟩,
    ⟨{(2,2), (3,2)}, 1⟩,
    ⟨{(1,0), (1,1), (1,2), (2,0)}, 2⟩,
    ⟨{(1,2), (2,0)}, 1⟩],
   16⟩

/-- A sentence is true on a board: its count is exactly the number of its
cells that are mines. -/
def Sentence.TrueOn (b : Board) (st : Sentence) : Prop :=
  ((st.cells.filter (fun c => c ∈ b.mines)).card : Int) = st.count

/-- The agent state is sound with respect to a board: dimensions agree,
every known mine is a real mine, every known safe and every probed cell is
a real non-mine, and every sentence in the knowledge list is true. -/
def AIState.Sound (b : Board) (s : AIState) : Prop :=
  s.height = b.height ∧ s.width = b.width ∧
  s.mines ⊆ b.mines ∧
  (∀ c ∈ s.safes, c ∉ b.mines) ∧
  (∀ c ∈ s.moves_made, c ∉ b.mines) ∧
  (∀ st ∈ s.knowledge, st.TrueOn b)

/-- Invariant carried through one `infer_multiple_sentences` pass: the agent
is sound and every queued new sentence is true on the board. -/
def PassSound (b : Board) (ps : PassState) : Prop :=
  ps.ai.Sound b ∧ ∀ st ∈ ps.newK, st.TrueOn b

/-- The board of the C1 counterexample: 2×3 with mines on all three
neighbours of `(0,0)`, so probing `(0,0)` truly reports count 3. -/
def bC1 : Board := ⟨2, 3, {(0,1), (1,0), (1,1)}⟩

/-- An agent state on the 2×3 grid: both sentences satisfy the constraint
invariant `0 ≤ count ≤ |cells|` (both counts are 0). Receiving the
observation `((0,0), 3)` — the true count on `bC1` — triggers a propagation
loop that never breaks out. -/
def stC1 : AIState :=
  ⟨2, 3, ∅, ∅, ∅,
   [⟨{(0,0), (0,1), (0,2), (1,2)}, 0⟩,
    ⟨{(0,0), (0,1), (0,2), (1,0), (1,1)}, 0⟩], 6⟩

/-- The sentence appended by the n-th pass of the C1 divergence: its cell
set alternates between `{(1,2)}` and `{(0,2)}` and its count is `n + 2`. -/
def tC1 (i : Nat) : Sentence :=
  ⟨if i % 2 = 0 then {(1,2)} else {(0,2)}, (i : Int) + 2⟩

/-- The knowledge list after the n-th pass of the C1 divergence. -/
def KC1 (n : Nat) : List Sentence :=
  ⟨{(0,2), (1,2)}, -1⟩ :: ⟨{(0,2)}, -3⟩ :: (List.range n).map tC1

/-- The agent state after the n-th pass of the C1 divergence. -/
def AC1 (n : Nat) : AIState :=
  ⟨2, 3, {(0,0)}, {(0,1), (1,0), (1,1)}, {(0,0)}, KC1 n, 5⟩


/-! ## Verification: the neighbour enumeration (nearby_cells) -/

/-- Characterisation of membership in `nearby_cells`: exactly the in-bounds
cells within one row and one column, excluding the cell itself. -/
theorem nearby_cells_mem (s : AIState) (cell x : Cell) :
    x ∈ s.nearby_cells cell ↔
      (x ≠ cell ∧ |x.1 - cell.1| ≤ 1 ∧ |x.2 - cell.2| ≤ 1 ∧
       0 ≤ x.1 ∧ x.1 < (s.height : Int) ∧ 0 ≤ x.2 ∧ x.2 < (s.width : Int)) := by
  obtain ⟨r, c⟩ := cell
  obtain ⟨a, b⟩ := x
  constructor
  · intro hmem
    simp only [AIState.nearby_cells, List.mem_flatten, List.mem_map] at hmem
    obtain ⟨l, ⟨i, hi, rfl⟩, hj⟩ := hmem
    simp only [List.mem_filterMap] at hj
    obtain ⟨j, hj, hij⟩ := hj
    simp only [List.mem_cons, List.not_mem_nil, or_false] at hi hj
    by_cases hP : (i, j) = (r, c) ∨ i < 0 ∨ j < 0 ∨ (s.height : Int) ≤ i ∨ (s.width : Int) ≤ j
    · rw [if_pos hP] at hij
      exact absurd hij (by simp)
    · rw [if_neg hP] at hij
      obtain ⟨rfl, rfl⟩ : i = a ∧ j = b := by simpa [Prod.ext_iff] using hij
      push_neg at hP
      obtain ⟨hne, h2, h3, h4, h5⟩ := hP
      refine ⟨hne, ?_, ?_, h2, h4, h3, h5⟩ <;> simp only [] <;> rw [abs_le] <;>
        rcases hi with rfl | rfl | rfl <;> rcases hj with rfl | rfl | rfl <;> omega
  · rintro ⟨hne, h1, h2, h3, h4, h5, h6⟩
    simp only [] at h1 h2 h3 h4 h5 h6
    rw [abs_le] at h1 h2
    have hP : ¬((a, b) = (r, c) ∨ a < 0 ∨ b < 0 ∨ (s.height : Int) ≤ a ∨ (s.width : Int) ≤ b) := by
      push_neg
      exact ⟨hne, by omega, by omega, by omega, by omega⟩
    simp only [AIState.nearby_cells, List.mem_flatten, List.mem_map]
    refine ⟨_, ⟨a, ?_, rfl⟩, ?_⟩
    · simp only [List.mem_cons, List.not_mem_nil, or_false]; omega
    · simp only [List.mem_filterMap]
      refine ⟨b, ?_, by rw [if_neg hP]⟩
      simp only [List.mem_cons, List.not_mem_nil, or_false]; omega

/-- Every cell in one row of the `nearby_cells` enumeration has that row as
its first coordinate. -/
theorem nearby_cells_fst (s : AIState) (cell : Cell) (i : Int) (x : Cell)
    (hx : x ∈ ([cell.2 - 1, cell.2, cell.2 + 1].filterMap (fun j =>
      if (i, j) = cell ∨ i < 0 ∨ j < 0 ∨ (s.height : Int) ≤ i ∨ (s.width : Int) ≤ j then
        none
      else
        some (i, j)))) : x.1 = i := by
  simp only [List.mem_filterMap] at hx
  obtain ⟨j, _, hij⟩ := hx
  by_cases hP : (i, j) = cell ∨ i < 0 ∨ j < 0 ∨ (s.height : Int) ≤ i ∨ (s.width : Int) ≤ j
  · rw [if_pos hP] at hij; exact absurd hij (by simp)
  · rw [if_neg hP] at hij
    obtain rfl : (i, j) = x := by simpa using hij
    rfl

/-- The neighbour list never repeats a cell. -/
theorem nearby_cells_nodup (s : AIState) (cell : Cell) :
    (s.nearby_cells cell).Nodup := by
  rw [AIState.nearby_cells, List.nodup_flatten]
  constructor
  · intro l hl
    simp only [List.mem_map] at hl
    obtain ⟨i, _, rfl⟩ := hl
    apply List.Nodup.filterMap
    · intro a b y h1 h2
      by_cases hP : (i, a) = cell ∨ i < 0 ∨ a < 0 ∨ (s.height : Int) ≤ i ∨ (s.width : Int) ≤ a
      · rw [if_pos hP] at h1; exact absurd h1 (by simp)
      · rw [if_neg hP] at h1
        by_cases hQ : (i, b) = cell ∨ i < 0 ∨ b < 0 ∨ (s.height : Int) ≤ i ∨ (s.width : Int) ≤ b
        · rw [if_pos hQ] at h2; exact absurd h2 (by simp)
        · rw [if_neg hQ] at h2
          obtain rfl : (i, a) = y := by simpa using h1
          obtain h : (i, b) = (i, a) := by simpa using h2
          simpa using h.symm
    · simp only [List.nodup_cons, List.mem_cons, List.not_mem_nil, or_false,
        not_false_iff, List.nodup_nil, and_true, not_or]
      omega
  · rw [List.pairwise_map]
    have hd : ∀ i k : Int, i ≠ k → List.Disjoint
        ([cell.2 - 1, cell.2, cell.2 + 1].filterMap (fun j =>
          if (i, j) = cell ∨ i < 0 ∨ j < 0 ∨ (s.height : Int) ≤ i ∨ (s.width : Int) ≤ j then
            none
          else
            some (i, j)))
        ([cell.2 - 1, cell.2, cell.2 + 1].filterMap (fun j =>
          if (k, j) = cell ∨ k < 0 ∨ j < 0 ∨ (s.height : Int) ≤ k ∨ (s.width : Int) ≤ j then
            none
          else
            some (k, j))) := by
      intro i k hne x hx hx2
      exact hne ((nearby_cells_fst s cell i x hx).symm.trans (nearby_cells_fst s cell k x hx2))
    refine List.Pairwise.cons ?_ (List.Pairwise.cons ?_ (List.pairwise_singleton _ _))
    · intro k hk
      simp only [List.mem_cons, List.not_mem_nil, or_false] at hk
      rcases hk with rfl | rfl <;> exact hd _ _ (by omega)
    · intro k hk
      simp only [List.mem_cons, List.not_mem_nil, or_false] at hk
      obtain rfl := hk
      exact hd _ _ (by omega)

/-- The neighbour list has at most eight entries. -/
theorem nearby_cells_length (s : AIState) (cell : Cell) :
    (s.nearby_cells cell).length ≤ 8 := by
  obtain ⟨r, c⟩ := cell
  rw [AIState.nearby_cells]
  simp only [List.map_cons, List.map_nil, List.flatten_cons, List.flatten_nil,
    List.length_append, List.length_nil]
  have h1 : ∀ i : Int, (([c - 1, c, c + 1].filterMap (fun j =>
      if (i, j) = (r, c) ∨ i < 0 ∨ j < 0 ∨ (s.height : Int) ≤ i ∨ (s.width : Int) ≤ j then
        none
      else
        some (i, j)))).length ≤ 3 := by
    intro i
    calc _ ≤ ([c - 1, c, c + 1] : List Int).length := List.length_filterMap_le _ _
    _ = 3 := rfl
  have h2 : (([c - 1, c, c + 1].filterMap (fun j =>
      if (r, j) = (r, c) ∨ r < 0 ∨ j < 0 ∨ (s.height : Int) ≤ r ∨ (s.width : Int) ≤ j then
        none
      else
        some (r, j)))).length ≤ 2 := by
    simp only [List.filterMap_cons, List.filterMap_nil, Prod.mk.injEq, and_true, true_and,
      eq_self_iff_true, true_or, if_true]
    split <;> split <;> simp
  have := h1 (r - 1)
  have := h1 (r + 1)
  omega

/-- C10: for every cell (r,c), `nearby_cells (r,c)` returns exactly the cells
(i,j) with |i-r| <= 1, |j-c| <= 1, (i,j) != (r,c), 0 <= i < height and
0 <= j < width, with no duplicates, hence at most 8 in-bounds elements. -/
theorem C10_nearby_cells_correct (s : AIState) (cell : Cell) :
    (∀ x : Cell, x ∈ s.nearby_cells cell ↔
      (x ≠ cell ∧ |x.1 - cell.1| ≤ 1 ∧ |x.2 - cell.2| ≤ 1 ∧
       0 ≤ x.1 ∧ x.1 < (s.height : Int) ∧ 0 ≤ x.2 ∧ x.2 < (s.width : Int))) ∧
    (s.nearby_cells cell).Nodup ∧ (s.nearby_cells cell).length ≤ 8 :=
  ⟨fun x => nearby_cells_mem s cell x, nearby_cells_nodup s cell, nearby_cells_length s cell⟩

/-- C7: agent-level `mark_mine c` inserts `c` into `mines`, leaves `safes`
and `moves_made` unchanged, keeps the knowledge list's length, removes `c`
and decrements the count by exactly 1 in every sentence containing `c`, and
leaves every other sentence completely unchanged. -/
theorem C7_mark_mine_updates (s : AIState) (c : Cell) :
    (s.mark_mine c).mines = insert c s.mines ∧
    (s.mark_mine c).safes = s.safes ∧
    (s.mark_mine c).moves_made = s.moves_made ∧
    (s.mark_mine c).knowledge.length = s.knowledge.length ∧
    (∀ i, i < s.knowledge.length →
      (c ∈ (s.knowledge.getD i default).cells →
        ((s.mark_mine c).knowledge.getD i default).cells
            = (s.knowledge.getD i default).cells.erase c ∧
        ((s.mark_mine c).knowledge.getD i default).count
            = (s.knowledge.getD i default).count - 1) ∧
      (c ∉ (s.knowledge.getD i default).cells →
        (s.mark_mine c).knowledge.getD i default = s.knowledge.getD i default)) := by
  refine ⟨rfl, rfl, rfl, by simp [AIState.mark_mine], ?_⟩
  intro i hi
  have hmap : (s.mark_mine c).knowledge.getD i default
      = (s.knowledge.getD i default).mark_mine c := by
    rw [AIState.mark_mine]
    simp only []
    rw [List.getD_eq_getElem _ _ (by simpa using hi), List.getD_eq_getElem _ _ hi,
      List.getElem_map]
  constructor
  · intro hc
    rw [hmap, Sentence.mark_mine, if_pos hc]
    exact ⟨rfl, rfl⟩
  · intro hc
    rw [hmap, Sentence.mark_mine, if_neg hc]

theorem C7_mark_mine_updates_witness :
    (wit7.mark_mine (0,0)).mines = insert (0,0) wit7.mines ∧
    ((wit7.mark_mine (0,0)).knowledge.getD 0 default).cells
        = (wit7.knowledge.getD 0 default).cells.erase (0,0) ∧
    ((wit7.mark_mine (0,0)).knowledge.getD 0 default).count
        = (wit7.knowledge.getD 0 default).count - 1 ∧
    (wit7.mark_mine (0,0)).knowledge.getD 1 default = wit7.knowledge.getD 1 default :=
  ⟨(C7_mark_mine_updates wit7 (0,0)).1,
   (((C7_mark_mine_updates wit7 (0,0)).2.2.2.2 0 (by decide)).1 (by decide)).1,
   (((C7_mark_mine_updates wit7 (0,0)).2.2.2.2 0 (by decide)).1 (by decide)).2,
   ((C7_mark_mine_updates wit7 (0,0)).2.2.2.2 1 (by decide)).2 (by decide)⟩

/-- C8: `make_safe_move` returns a cell of `safes \ moves_made` that is not
in `mines` when one exists and `none` exactly when every known safe cell not
yet probed is a known mine; being a pure function of the state it mutates
none of `moves_made`, `mines` or `safes`. -/
theorem C8_make_safe_move_correct (s : AIState) :
    (∀ c : Cell, s.make_safe_move = some c →
      c ∈ s.safes ∧ c ∉ s.moves_made ∧ c ∉ s.mines) ∧
    (s.make_safe_move = none ↔ ∀ c ∈ s.safes, c ∉ s.moves_made → c ∈ s.mines) := by
  constructor
  · intro c hc
    rw [AIState.make_safe_move] at hc
    have hmem := List.mem_of_find?_eq_some hc
    rw [Finset.mem_sort, Finset.mem_sdiff] at hmem
    have hp := List.find?_some hc
    rw [decide_eq_true_eq] at hp
    exact ⟨hmem.1, hmem.2, hp.1⟩
  · rw [AIState.make_safe_move, List.find?_eq_none]
    constructor
    · intro h c hcs hcm
      by_contra hmine
      exact h c (by rw [Finset.mem_sort, Finset.mem_sdiff]; exact ⟨hcs, hcm⟩)
        (by rw [decide_eq_true_eq]; exact ⟨hmine, hcm⟩)
    · intro h c hc
      rw [Finset.mem_sort, Finset.mem_sdiff] at hc
      rw [decide_eq_true_eq]
      rintro ⟨hmine, _⟩
      exact hmine (h c hc.1 hc.2)

theorem C8_make_safe_move_correct_witness :
    (0,1) ∈ wit8.safes ∧ (0,1) ∉ wit8.moves_made ∧ (0,1) ∉ wit8.mines :=
  (C8_make_safe_move_correct wit8).1 (0,1) (by
    rw [AIState.make_safe_move]
    rw [show wit8.safes \ wit8.moves_made = {(0,1)} from by decide]
    rw [Finset.sort_singleton]
    simp [List.find?]
    decide)

/-- C3 fails on the code: `make_random_move` rejection-samples an unbounded
random stream and decides `None` solely from `pending_cells - |mines| <= 0`.
After the consistent trace [((0,0),0), ((0,0),0)] (the same cell probed
twice) the counter reaches 0, and the call returns `None` even though the
in-grid cell (0,1) is unprobed and not a known mine, so the claimed
candidate-set enumeration does not happen. -/
theorem C3_counterexample :
    Board.consistentTrace ⟨1, 2, ∅⟩ [((0,0), 0), ((0,0), 0)] ∧
    AIState.runTraceO 10 (AIState.init 1 2) [((0,0), 0), ((0,0), 0)] = some stC3 ∧
    stC3.make_random_move [(0,1)] = some none ∧
    Board.inGrid ⟨1, 2, ∅⟩ (0,1) ∧ (0,1) ∉ stC3.moves_made ∧ (0,1) ∉ stC3.mines := by
  decide

theorem make_random_move_spec (s : AIState) (draws : List Cell) :
    (s.make_random_move draws = some none ↔ s.pending_cells - (s.mines.card : Int) ≤ 0) ∧
    (∀ c : Cell, s.make_random_move draws = some (some c) →
      c ∉ s.mines ∧ c ∉ s.moves_made ∧ c ∈ draws) := by
  induction draws with
  | nil =>
    constructor
    · rw [AIState.make_random_move]
      split_ifs with h
      · exact ⟨fun hc => absurd hc (by simp), fun hc => absurd hc (by omega)⟩
      · exact ⟨fun _ => by omega, fun _ => rfl⟩
    · intro c hc
      rw [AIState.make_random_move] at hc
      split_ifs at hc
      simp at hc
  | cons d rest ih =>
    constructor
    · rw [AIState.make_random_move]
      split_ifs with h hd
      · exact ⟨fun hc => absurd hc (by simp), fun hc => absurd hc (by omega)⟩
      · exact ih.1
      · exact ⟨fun _ => by omega, fun _ => rfl⟩
    · intro c hc
      rw [AIState.make_random_move] at hc
      split_ifs at hc with h hd
      · obtain rfl : d = c := by simpa using hc
        exact ⟨hd.1, hd.2, List.mem_cons_self d rest⟩
      · obtain ⟨h1, h2, h3⟩ := ih.2 c hc
        exact ⟨h1, h2, List.mem_cons_of_mem d h3⟩
      · exact absurd hc (by simp)

/-- C3 amended: what the code actually does — `make_random_move` returns
`None` if and only if `pending_cells - |mines| <= 0` (regardless of the
actual candidate set), and any returned move is a drawn cell that is neither
a known mine nor an already-made move. -/
theorem C3_amended_random_move (s : AIState) (draws : List Cell) :
    (s.make_random_move draws = some none ↔ s.pending_cells - (s.mines.card : Int) ≤ 0) ∧
    (∀ c : Cell, s.make_random_move draws = some (some c) →
      c ∉ s.mines ∧ c ∉ s.moves_made ∧ c ∈ draws) :=
  make_random_move_spec s draws

theorem C3_amended_random_move_witness :
    ((0,1) ∉ c3witA.mines ∧ (0,1) ∉ c3witA.moves_made ∧ (0,1) ∈ [((0,1) : Cell)]) ∧
    c3witB.make_random_move [] = some none :=
  ⟨(C3_amended_random_move c3witA [(0,1)]).2 (0,1) (by decide),
   (C3_amended_random_move c3witB []).1.mpr (by decide)⟩

theorem make_random_move_none_iff (s : AIState) (draws : List Cell) :
    s.make_random_move draws = some none ↔ s.pending_cells - (s.mines.card : Int) ≤ 0 :=
  (make_random_move_spec s draws).1

theorem mark_safe_all_pending_moves (cs : List Cell) (s : AIState) :
    (s.mark_safe_all cs).pending_cells = s.pending_cells ∧
    (s.mark_safe_all cs).moves_made = s.moves_made := by
  induction cs generalizing s with
  | nil => exact ⟨rfl, rfl⟩
  | cons c cs ih =>
    rw [AIState.mark_safe_all, List.foldl_cons]
    exact ⟨((ih (s.mark_safe c)).1 : _), (ih (s.mark_safe c)).2⟩

theorem mark_mine_all_pending_moves (cs : List Cell) (s : AIState) :
    (s.mark_mine_all cs).pending_cells = s.pending_cells ∧
    (s.mark_mine_all cs).moves_made = s.moves_made := by
  induction cs generalizing s with
  | nil => exact ⟨rfl, rfl⟩
  | cons c cs ih =>
    rw [AIState.mark_mine_all, List.foldl_cons]
    exact ⟨((ih (s.mark_mine c)).1 : _), (ih (s.mark_mine c)).2⟩

theorem add_knowledge_base_moves_pending (s : AIState) (cell : Cell) (count : Int) :
    (s.add_knowledge_base cell count).moves_made = insert cell s.moves_made ∧
    (s.add_knowledge_base cell count).pending_cells = s.pending_cells - 1 := by
  rw [AIState.add_knowledge_base]
  split_ifs with h1 h2
  · exact ⟨(mark_safe_all_pending_moves _ _).2, (mark_safe_all_pending_moves _ _).1⟩
  · exact ⟨(mark_mine_all_pending_moves _ _).2, (mark_mine_all_pending_moves _ _).1⟩
  · exact ⟨by dsimp only; split <;> rfl, by dsimp only; split <;> rfl⟩

theorem resolvePair_pending_moves (i : Nat) (ps : PassState) (j : Nat) :
    (resolvePair i ps j).ai.pending_cells = ps.ai.pending_cells ∧
    (resolvePair i ps j).ai.moves_made = ps.ai.moves_made := by
  rw [resolvePair]
  dsimp only
  split_ifs <;> exact ⟨rfl, rfl⟩

theorem foldl_resolvePair_pending_moves (i : Nat) (l : List Nat) (ps : PassState) :
    (l.foldl (resolvePair i) ps).ai.pending_cells = ps.ai.pending_cells ∧
    (l.foldl (resolvePair i) ps).ai.moves_made = ps.ai.moves_made := by
  induction l generalizing ps with
  | nil => exact ⟨rfl, rfl⟩
  | cons a l ih =>
    rw [List.foldl_cons]
    exact ⟨(ih _).1.trans (resolvePair_pending_moves i ps a).1,
           (ih _).2.trans (resolvePair_pending_moves i ps a).2⟩

theorem outerStep_pending_moves (n : Nat) (ps : PassState) (i : Nat) :
    (outerStep n ps i).ai.pending_cells = ps.ai.pending_cells ∧
    (outerStep n ps i).ai.moves_made = ps.ai.moves_made := by
  rw [outerStep]
  dsimp only
  split_ifs with h1 h2
  · exact ⟨rfl, rfl⟩
  · exact ⟨(foldl_resolvePair_pending_moves i (List.range n) _).1,
           (foldl_resolvePair_pending_moves i (List.range n) _).2⟩
  · exact ⟨(foldl_resolvePair_pending_moves i (List.range n) _).1,
           (foldl_resolvePair_pending_moves i (List.range n) _).2⟩

theorem foldl_outerStep_pending_moves (n : Nat) (l : List Nat) (ps : PassState) :
    (l.foldl (outerStep n) ps).ai.pending_cells = ps.ai.pending_cells ∧
    (l.foldl (outerStep n) ps).ai.moves_made = ps.ai.moves_made := by
  induction l generalizing ps with
  | nil => exact ⟨rfl, rfl⟩
  | cons a l ih =>
    rw [List.foldl_cons]
    exact ⟨(ih _).1.trans (outerStep_pending_moves n ps a).1,
           (ih _).2.trans (outerStep_pending_moves n ps a).2⟩

theorem inferPass_pending_moves (s : AIState) :
    (inferPass s).1.pending_cells = s.pending_cells ∧
    (inferPass s).1.moves_made = s.moves_made := by
  have ha := foldl_outerStep_pending_moves s.knowledge.length
    (List.range s.knowledge.length) ⟨s, [], []⟩
  exact ⟨ha.1, ha.2⟩

theorem add_knowledge_loop_pending_moves (fuel : Nat) (s : AIState) :
    (AIState.add_knowledge_loop fuel s).pending_cells = s.pending_cells ∧
    (AIState.add_knowledge_loop fuel s).moves_made = s.moves_made := by
  induction fuel generalizing s with
  | zero => exact ⟨rfl, rfl⟩
  | succ fuel ih =>
    rw [AIState.add_knowledge_loop]
    split_ifs with h
    · exact inferPass_pending_moves s
    · refine ⟨(ih _).1.trans ?_, (ih _).2.trans ?_⟩
      · exact (inferPass_pending_moves s).1
      · exact (inferPass_pending_moves s).2

theorem add_knowledge_moves_pending (fuel : Nat) (s : AIState) (cell : Cell) (count : Int) :
    (AIState.add_knowledge fuel s cell count).moves_made = insert cell s.moves_made ∧
    (AIState.add_knowledge fuel s cell count).pending_cells = s.pending_cells - 1 := by
  rw [AIState.add_knowledge]
  refine ⟨(add_knowledge_loop_pending_moves _ _).2.trans ?_,
          (add_knowledge_loop_pending_moves _ _).1.trans ?_⟩
  · exact (add_knowledge_base_moves_pending s cell count).1
  · exact (add_knowledge_base_moves_pending s cell count).2

theorem runTrace_moves_pending (fuel : Nat) (tr : List (Cell × Int)) (s : AIState) :
    (AIState.runTrace fuel s tr).moves_made = s.moves_made ∪ (tr.map Prod.fst).toFinset ∧
    (AIState.runTrace fuel s tr).pending_cells = s.pending_cells - tr.length := by
  induction tr generalizing s with
  | nil => simp [AIState.runTrace]
  | cons p rest ih =>
    rw [AIState.runTrace]
    obtain ⟨h1, h2⟩ := ih (s.add_knowledge fuel p.1 p.2)
    rw [h1, h2, (add_knowledge_moves_pending fuel s p.1 p.2).1,
      (add_knowledge_moves_pending fuel s p.1 p.2).2]
    constructor
    · simp [Finset.insert_union, Finset.union_insert]
    · simp only [List.length_cons]
      push_cast
      ring

/-- C9: `pending_cells` starts at height*width and each `add_knowledge`
call decrements it by exactly 1 and nothing else touches it, so after a
duplicate-free trace `pending_cells = height*width - |moves_made|`; and
`make_random_move` decides to return `None` solely from the test
`pending_cells - |mines| <= 0`. -/
theorem C9_pending_cells_bookkeeping (h w fuel : Nat) (tr : List (Cell × Int))
    (hnd : (tr.map Prod.fst).Nodup) :
    (AIState.runTrace fuel (AIState.init h w) tr).moves_made = (tr.map Prod.fst).toFinset ∧
    (AIState.runTrace fuel (AIState.init h w) tr).pending_cells
      = (h : Int) * (w : Int)
        - (((AIState.runTrace fuel (AIState.init h w) tr).moves_made.card : Int)) ∧
    (∀ (s : AIState) (draws : List Cell),
      s.make_random_move draws = some none ↔ s.pending_cells - (s.mines.card : Int) ≤ 0) := by
  obtain ⟨h1, h2⟩ := runTrace_moves_pending fuel tr (AIState.init h w)
  have hm : (AIState.runTrace fuel (AIState.init h w) tr).moves_made
      = (tr.map Prod.fst).toFinset := by
    rw [h1]
    simp [AIState.init]
  refine ⟨hm, ?_, fun s draws => make_random_move_none_iff s draws⟩
  rw [h2, hm]
  have hcard : (tr.map Prod.fst).toFinset.card = tr.length := by
    rw [List.toFinset_card_of_nodup hnd, List.length_map]
  rw [hcard]
  rfl

theorem C9_pending_cells_bookkeeping_witness :
    (AIState.runTrace 5 (AIState.init 1 2) [((0,0), 0)]).moves_made
        = ([((0,0), 0)].map Prod.fst).toFinset ∧
    (AIState.runTrace 5 (AIState.init 1 2) [((0,0), 0)]).pending_cells
      = (1 : Int) * (2 : Int)
        - (((AIState.runTrace 5 (AIState.init 1 2) [((0,0), 0)]).moves_made.card : Int)) ∧
    (∀ (s : AIState) (draws : List Cell),
      s.make_random_move draws = some none ↔ s.pending_cells - (s.mines.card : Int) ≤ 0) :=
  C9_pending_cells_bookkeeping 1 2 5 [((0,0), 0)] (by decide)

/-- C4 fails on the code: the shortcut tests use the ORIGINAL observation
count and the FULL neighbour list, not the remaining count and remaining
neighbours. After a consistent history on a 1×4 board, probing (0,1) with
count 1 leaves one remaining neighbour and remaining count 1, yet the code
appends the sentence ⟨{(0,0)}, 1⟩ instead of marking (0,0) a mine. -/
theorem C4_counterexample :
    Board.consistentTrace ⟨1, 4, {(0,0)}⟩ [((0,3), 0), ((0,1), 1)] ∧
    AIState.runTraceO 10 (AIState.init 1 4) [((0,3), 0)] = some stC4 ∧
    stC4.nearby_cells (0,1) = [(0,0), (0,2)] ∧
    (stC4.add_knowledge_base (0,1) 1).knowledge = [⟨{(0,0)}, 1⟩] ∧
    (0,0) ∉ (stC4.add_knowledge_base (0,1) 1).mines ∧
    (0,0) ∉ (stC4.add_knowledge_base (0,1) 1).safes := by
  decide

theorem mark_safe_all_sets (cs : List Cell) (s : AIState) :
    (s.mark_safe_all cs).safes = s.safes ∪ cs.toFinset ∧
    (s.mark_safe_all cs).mines = s.mines ∧
    (s.mark_safe_all cs).knowledge.length = s.knowledge.length := by
  induction cs generalizing s with
  | nil => simp [AIState.mark_safe_all]
  | cons c cs ih =>
    rw [AIState.mark_safe_all, List.foldl_cons]
    obtain ⟨h1, h2, h3⟩ := ih (s.mark_safe c)
    rw [AIState.mark_safe_all] at h1 h2 h3
    refine ⟨h1.trans ?_, h2.trans rfl, h3.trans (by simp [AIState.mark_safe])⟩
    show insert c s.safes ∪ cs.toFinset = s.safes ∪ (c :: cs).toFinset
    simp [Finset.insert_union, Finset.union_insert]

theorem mark_mine_all_sets (cs : List Cell) (s : AIState) :
    (s.mark_mine_all cs).mines = s.mines ∪ cs.toFinset ∧
    (s.mark_mine_all cs).safes = s.safes ∧
    (s.mark_mine_all cs).knowledge.length = s.knowledge.length := by
  induction cs generalizing s with
  | nil => simp [AIState.mark_mine_all]
  | cons c cs ih =>
    rw [AIState.mark_mine_all, List.foldl_cons]
    obtain ⟨h1, h2, h3⟩ := ih (s.mark_mine c)
    rw [AIState.mark_mine_all] at h1 h2 h3
    refine ⟨h1.trans ?_, h2.trans rfl, h3.trans (by simp [AIState.mark_mine])⟩
    show insert c s.mines ∪ cs.toFinset = s.mines ∪ (c :: cs).toFinset
    simp [Finset.insert_union, Finset.union_insert]

theorem partition_foldl (M Mo Sa : Finset Cell) (l : List Cell) (acc : Finset Cell × Int) :
    l.foldl (fun p nb => if nb ∈ M then (p.1, p.2 - 1)
      else if nb ∈ Mo ∨ nb ∈ Sa then p else (insert nb p.1, p.2)) acc
    = (acc.1 ∪ (l.filter (fun nb => decide (nb ∉ M ∧ nb ∉ Mo ∧ nb ∉ Sa))).toFinset,
       acc.2 - ((l.filter (fun nb => decide (nb ∈ M))).length : Int)) := by
  induction l generalizing acc with
  | nil => simp
  | cons c cs ih =>
    rw [List.foldl_cons]
    by_cases h1 : c ∈ M
    · rw [if_pos h1, ih]
      refine Prod.ext ?_ ?_
      · simp [h1]
      · have hl : (List.filter (fun nb => decide (nb ∈ M)) (c :: cs)).length
            = (List.filter (fun nb => decide (nb ∈ M)) cs).length + 1 := by
          simp [h1]
        show acc.2 - 1 - _ = acc.2 - _
        rw [hl]
        push_cast
        ring
    · rw [if_neg h1]
      have hl2 : List.filter (fun nb => decide (nb ∈ M)) (c :: cs)
          = List.filter (fun nb => decide (nb ∈ M)) cs := by
        simp [h1]
      by_cases h2 : c ∈ Mo ∨ c ∈ Sa
      · rw [if_pos h2, ih]
        have hl1 : List.filter (fun nb => decide (nb ∉ M ∧ nb ∉ Mo ∧ nb ∉ Sa)) (c :: cs)
            = List.filter (fun nb => decide (nb ∉ M ∧ nb ∉ Mo ∧ nb ∉ Sa)) cs := by
          have : ¬(c ∉ M ∧ c ∉ Mo ∧ c ∉ Sa) := by tauto
          simp [this]
        rw [hl1, hl2]
      · rw [if_neg h2, ih]
        push_neg at h2
        have hl1 : List.filter (fun nb => decide (nb ∉ M ∧ nb ∉ Mo ∧ nb ∉ Sa)) (c :: cs)
            = c :: List.filter (fun nb => decide (nb ∉ M ∧ nb ∉ Mo ∧ nb ∉ Sa)) cs := by
          have : c ∉ M ∧ c ∉ Mo ∧ c ∉ Sa := ⟨h1, h2.1, h2.2⟩
          simp [this]
        rw [hl1, hl2]
        refine Prod.ext ?_ rfl
        show insert c acc.1 ∪ _ = acc.1 ∪ (List.toFinset (c :: _))
        rw [List.toFinset_cons]
        ext x
        simp [Finset.mem_insert]

/-- C4 amended: what the code actually does — the count-zero shortcut (on
the original count) marks every in-grid neighbour safe, the all-mines
shortcut fires only when the original count equals the FULL neighbour-list
length, and otherwise the partition (mines decrement the count and are
dropped, probed or safe cells are dropped) forms a sentence that is appended
unless already present; no immediate marking happens in that branch. -/
theorem C4_amended_observation_shortcuts (s : AIState) (cell : Cell) (count : Int) :
    (count = 0 →
      (s.add_knowledge_base cell count).safes
          = insert cell s.safes ∪ (s.nearby_cells cell).toFinset ∧
      (s.add_knowledge_base cell count).mines = s.mines ∧
      (s.add_knowledge_base cell count).knowledge.length = s.knowledge.length) ∧
    (count ≠ 0 → ((s.nearby_cells cell).length : Int) = count →
      (s.add_knowledge_base cell count).mines = s.mines ∪ (s.nearby_cells cell).toFinset ∧
      (s.add_knowledge_base cell count).safes = insert cell s.safes ∧
      (s.add_knowledge_base cell count).knowledge.length = s.knowledge.length) ∧
    (count ≠ 0 → ((s.nearby_cells cell).length : Int) ≠ count →
      (s.add_knowledge_base cell count).mines = s.mines ∧
      (s.add_knowledge_base cell count).safes = insert cell s.safes ∧
      (s.add_knowledge_base cell count).knowledge =
        (if (⟨((s.nearby_cells cell).filter (fun nb => decide (nb ∉ s.mines ∧
              nb ∉ insert cell s.moves_made ∧ nb ∉ insert cell s.safes))).toFinset,
            count - (((s.nearby_cells cell).filter
              (fun nb => decide (nb ∈ s.mines))).length : Int)⟩ : Sentence)
            ∈ s.knowledge.map (fun st => st.mark_safe cell)
         then s.knowledge.map (fun st => st.mark_safe cell)
         else s.knowledge.map (fun st => st.mark_safe cell)
           ++ [⟨((s.nearby_cells cell).filter (fun nb => decide (nb ∉ s.mines ∧
                nb ∉ insert cell s.moves_made ∧ nb ∉ insert cell s.safes))).toFinset,
               count - (((s.nearby_cells cell).filter
                 (fun nb => decide (nb ∈ s.mines))).length : Int)⟩])) := by
  refine ⟨?_, ?_, ?_⟩
  · intro h0
    rw [AIState.add_knowledge_base]
    dsimp only
    rw [if_pos h0]
    refine ⟨(mark_safe_all_sets _ _).1.trans rfl, (mark_safe_all_sets _ _).2.1.trans rfl,
      (mark_safe_all_sets _ _).2.2.trans (List.length_map _ _)⟩
  · intro h0 hlen
    rw [AIState.add_knowledge_base]
    dsimp only [AIState.mark_safe, AIState.nearby_cells] at hlen ⊢
    rw [if_neg h0, if_pos hlen]
    exact ⟨(mark_mine_all_sets _ _).1.trans rfl, (mark_mine_all_sets _ _).2.1.trans rfl,
      (mark_mine_all_sets _ _).2.2.trans (List.length_map _ _)⟩
  · intro h0 hlen
    rw [AIState.add_knowledge_base]
    dsimp only [AIState.mark_safe, AIState.nearby_cells] at hlen ⊢
    rw [if_neg h0, if_neg hlen]
    rw [partition_foldl]
    simp only [Finset.empty_union]
    split_ifs with hmem <;> exact ⟨rfl, rfl, rfl⟩

theorem C4_amended_observation_shortcuts_witness :
    (stC4.add_knowledge_base (0,1) 1).mines = stC4.mines :=
  ((C4_amended_observation_shortcuts stC4 (0,1) 1).2.2 (by decide) (by decide)).1

/-- C6: if the knowledge list is [⟨{A,B,C},1⟩, ⟨{A,B},1⟩] with A, B, C
distinct, the propagation loop derives the difference constraint {C} with
count |1-1| = 0, immediately marks C safe, and leaves knowledge [⟨{A,B},1⟩]:
C ends in `safes` rather than in any stored sentence. -/
theorem C6_subset_resolution (Acell Bcell Ccell : Cell) (s : AIState) (fuel : Nat)
    (hAB : Acell ≠ Bcell) (hAC : Acell ≠ Ccell) (hBC : Bcell ≠ Ccell)
    (hk : s.knowledge = [⟨{Acell, Bcell, Ccell}, 1⟩, ⟨{Acell, Bcell}, 1⟩]) :
    Ccell ∈ (s.add_knowledge_loop (fuel + 1)).safes ∧
    (s.add_knowledge_loop (fuel + 1)).safes = s.safes ∪ {Ccell} ∧
    (s.add_knowledge_loop (fuel + 1)).mines = s.mines ∧
    (s.add_knowledge_loop (fuel + 1)).knowledge = [⟨{Acell, Bcell}, 1⟩] := by
  obtain ⟨h, w, mm, mi, sa, k, pc⟩ := s
  dsimp only at hk
  subst hk
  have hCA : Ccell ≠ Acell := Ne.symm hAC
  have hCB : Ccell ≠ Bcell := Ne.symm hBC
  have hCmem : Ccell ∉ ({Acell, Bcell} : Finset Cell) := by simp [hCA, hCB]
  have hsetne : ({Acell, Bcell, Ccell} : Finset Cell) ≠ {Acell, Bcell} := by
    intro he
    exact hCmem (he ▸ (by simp : Ccell ∈ ({Acell, Bcell, Ccell} : Finset Cell)))
  have hnsub : ¬ ({Acell, Bcell, Ccell} : Finset Cell) ⊆ {Acell, Bcell} :=
    fun hs => hCmem (hs (by simp))
  have hsub : ({Acell, Bcell} : Finset Cell) ⊆ {Acell, Bcell, Ccell} := by
    intro x hx
    simp only [Finset.mem_insert, Finset.mem_singleton] at hx ⊢
    tauto
  have hcard3 : ({Acell, Bcell, Ccell} : Finset Cell).card = 3 := by
    rw [Finset.card_insert_of_not_mem (by simp [hAB, hAC]),
      Finset.card_insert_of_not_mem (by simp [hBC]), Finset.card_singleton]
  have hdiff : ({Acell, Bcell, Ccell} : Finset Cell) \ {Acell, Bcell} = {Ccell} := by
    ext x
    simp only [Finset.mem_sdiff, Finset.mem_insert, Finset.mem_singleton]
    constructor
    · rintro ⟨h1 | h1 | h1, h2⟩
      · exact absurd (Or.inl h1) h2
      · exact absurd (Or.inr h1) h2
      · exact h1
    · rintro rfl
      exact ⟨Or.inr (Or.inr rfl), by push_neg; exact ⟨hCA, hCB⟩⟩
  have hdC1 : ({Acell, Bcell, Ccell} : Finset Cell) \ {Ccell} = {Acell, Bcell} := by
    ext x
    simp only [Finset.mem_sdiff, Finset.mem_insert, Finset.mem_singleton]
    constructor
    · rintro ⟨h1 | h1 | h1, h2⟩
      · exact Or.inl h1
      · exact Or.inr h1
      · exact absurd h1 h2
    · rintro (rfl | rfl)
      · exact ⟨Or.inl rfl, hAC⟩
      · exact ⟨Or.inr (Or.inl rfl), hBC⟩
  have hdC2 : ({Acell, Bcell} : Finset Cell) \ {Ccell} = {Acell, Bcell} := by
    ext x
    simp only [Finset.mem_sdiff, Finset.mem_insert, Finset.mem_singleton]
    constructor
    · rintro ⟨h1, _⟩
      exact h1
    · rintro (rfl | rfl)
      · exact ⟨Or.inl rfl, hAC⟩
      · exact ⟨Or.inr rfl, hBC⟩
  -- step A: the first outer iteration resolves the pair and marks Ccell safe
  have stepA : outerStep 2 ⟨⟨h, w, mm, mi, sa, [⟨{Acell, Bcell, Ccell}, 1⟩, ⟨{Acell, Bcell}, 1⟩], pc⟩, [], []⟩ 0
      = ⟨⟨h, w, mm, mi, sa ∪ {Ccell}, [⟨{Acell, Bcell}, 1⟩, ⟨∅, 0⟩], pc⟩, [], []⟩ := by
    rw [outerStep]
    dsimp only [List.getD_cons_zero]
    rw [if_neg (by simp)]
    rw [if_neg (by simp [hcard3])]
    have hr2 : List.range 2 = [0, 1] := by decide
    rw [hr2]
    simp only [List.foldl_cons, List.foldl_nil]
    have hinner : resolvePair 0
        (⟨⟨h, w, mm, mi, sa, [⟨{Acell, Bcell, Ccell}, 1⟩, ⟨{Acell, Bcell}, 1⟩], pc⟩,
          [], []⟩ : PassState) 0
        = ⟨⟨h, w, mm, mi, sa, [⟨{Acell, Bcell, Ccell}, 1⟩, ⟨{Acell, Bcell}, 1⟩], pc⟩,
          [], []⟩ := by
      rw [resolvePair]
      dsimp only [List.getD_cons_zero]
      rw [if_pos rfl]
    rw [hinner]
    rw [resolvePair]
    dsimp only [List.getD_cons_zero, List.getD_cons_succ]
    rw [if_neg (by simp [Sentence.mk.injEq, hsetne])]
    rw [if_pos (Or.inr hsub)]
    rw [if_neg hnsub, if_neg hnsub]
    rw [hdiff]
    rw [if_pos (by simp)]
    rw [if_pos (by norm_num)]
    dsimp only [Sentence.known_safes, Sentence.known_mines]
    rw [if_pos (by simp : |(1:Int) - 1| = 0)]
    rw [if_neg (by simp)]
    dsimp only [AIState.mark_safe_set, AIState.mark_mine_set]
    simp only [List.map_cons, List.map_nil, hdC1, hdC2, Finset.union_empty,
      Finset.sdiff_empty, Finset.inter_empty, Finset.card_empty, Nat.cast_zero,
      sub_zero]
    dsimp only [List.getD_cons_zero, List.getD_cons_succ]
    rw [removing_duplicates]
    rw [if_pos (by simp [List.count_cons])]
    rw [removing_duplicates.go]
    rw [if_pos rfl]
    simp
  have stepB : outerStep 2 ⟨⟨h, w, mm, mi, sa ∪ {Ccell}, [⟨{Acell, Bcell}, 1⟩, ⟨∅, 0⟩], pc⟩, [], []⟩ 1
      = ⟨⟨h, w, mm, mi, sa ∪ {Ccell}, [⟨{Acell, Bcell}, 1⟩, ⟨∅, 0⟩], pc⟩, [⟨∅, 0⟩], []⟩ := by
    rw [outerStep]
    dsimp only [List.getD_cons_succ, List.getD_cons_zero]
    rw [if_pos rfl]
    rfl
  have hr2 : List.range 2 = [0, 1] := by decide
  have hlen2 : (AIState.mk h w mm mi sa
      [⟨{Acell, Bcell, Ccell}, 1⟩, ⟨{Acell, Bcell}, 1⟩] pc).knowledge.length = 2 := rfl
  have hAux : inferPassAux ⟨h, w, mm, mi, sa, [⟨{Acell, Bcell, Ccell}, 1⟩, ⟨{Acell, Bcell}, 1⟩], pc⟩
      = ⟨⟨h, w, mm, mi, sa ∪ {Ccell}, [⟨{Acell, Bcell}, 1⟩, ⟨∅, 0⟩], pc⟩, [⟨∅, 0⟩], []⟩ := by
    rw [inferPassAux, hlen2, hr2]
    simp only [List.foldl_cons, List.foldl_nil]
    rw [stepA, stepB]
  have hPass : inferPass ⟨h, w, mm, mi, sa, [⟨{Acell, Bcell, Ccell}, 1⟩, ⟨{Acell, Bcell}, 1⟩], pc⟩
      = (⟨h, w, mm, mi, sa ∪ {Ccell}, [⟨{Acell, Bcell}, 1⟩], pc⟩, []) := by
    rw [inferPass, hAux]
    dsimp only
    simp only [List.foldl_cons, List.foldl_nil]
    simp [List.erase_cons, Sentence.mk.injEq, Finset.insert_ne_empty]
  rw [AIState.add_knowledge_loop]
  rw [hPass]
  dsimp only [List.isEmpty_nil]
  rw [if_pos rfl]
  exact ⟨by simp, rfl, rfl, rfl⟩

theorem C6_subset_resolution_witness :
    ((0 : Int), (2 : Int)) ∈
      ((⟨1, 3, ∅, ∅, ∅, [⟨{(0,0), (0,1), (0,2)}, 1⟩, ⟨{(0,0), (0,1)}, 1⟩], 3⟩ :
        AIState).add_knowledge_loop 1).safes :=
  (C6_subset_resolution (0,0) (0,1) (0,2)
    ⟨1, 3, ∅, ∅, ∅, [⟨{(0,0), (0,1), (0,2)}, 1⟩, ⟨{(0,0), (0,1)}, 1⟩], 3⟩ 0
    (by decide) (by decide) (by decide) rfl).1

set_option maxRecDepth 1000000 in
set_option maxHeartbeats 4000000 in
/-- C2 fails on the code: after a consistent trace, sentences in the final
knowledge list still contain cells that are members of `safes` and of
`mines`. -/
theorem C2_counterexample :
    bC2.Wf ∧
    bC2.consistentTrace trC2 ∧
    AIState.runTraceO 10 (AIState.init 6 5) trC2 = some c2s14 ∧
    (∃ st ∈ c2s14.knowledge, ∃ c ∈ st.cells, c ∈ c2s14.safes) ∧
    (∃ st ∈ c2s14.knowledge, ∃ c ∈ st.cells, c ∈ c2s14.mines) :=
  ⟨by decide, by decide, by decide, by decide, by decide⟩

/-! ## Verification: soundness of the knowledge base (C5) -/

theorem TrueOn_empty (b : Board) : Sentence.TrueOn b ⟨∅, 0⟩ := by
  simp [Sentence.TrueOn]

theorem TrueOn_known_safes (b : Board) (st : Sentence) (h : st.TrueOn b) :
    ∀ c ∈ st.known_safes, c ∉ b.mines := by
  intro c hc hcb
  rw [Sentence.known_safes] at hc
  split_ifs at hc with h0
  · rw [Sentence.TrueOn, h0, Nat.cast_eq_zero, Finset.card_eq_zero] at h
    have : c ∈ st.cells.filter (fun c => c ∈ b.mines) := Finset.mem_filter.mpr ⟨hc, hcb⟩
    rw [h] at this
    exact absurd this (Finset.not_mem_empty c)
  · exact absurd hc (Finset.not_mem_empty c)

theorem TrueOn_known_mines (b : Board) (st : Sentence) (h : st.TrueOn b) :
    ∀ c ∈ st.known_mines, c ∈ b.mines := by
  intro c hc
  rw [Sentence.known_mines] at hc
  split_ifs at hc with h0
  · rw [Sentence.TrueOn, h0, Nat.cast_inj] at h
    have hfull : st.cells.filter (fun c => c ∈ b.mines) = st.cells :=
      Finset.eq_of_subset_of_card_le (Finset.filter_subset _ _) (le_of_eq h.symm)
    have := hfull ▸ hc
    exact (Finset.mem_filter.mp this).2
  · exact absurd hc (Finset.not_mem_empty c)

theorem TrueOn_erase_nonmine (b : Board) (cells : Finset Cell) (cnt : Int) (c : Cell)
    (h : Sentence.TrueOn b ⟨cells, cnt⟩) (hc : c ∉ b.mines) :
    Sentence.TrueOn b ⟨cells.erase c, cnt⟩ := by
  rw [Sentence.TrueOn] at h ⊢
  dsimp only at h ⊢
  rw [Finset.filter_erase, Finset.erase_eq_of_not_mem (by simp [hc])]
  exact h

theorem TrueOn_mark_safe (b : Board) (st : Sentence) (c : Cell)
    (h : st.TrueOn b) (hc : c ∉ b.mines) : (st.mark_safe c).TrueOn b := by
  rw [Sentence.mark_safe]
  split_ifs with hmem
  · exact TrueOn_erase_nonmine b st.cells st.count c h hc
  · exact h

theorem TrueOn_mark_mine (b : Board) (st : Sentence) (c : Cell)
    (h : st.TrueOn b) (hc : c ∈ b.mines) : (st.mark_mine c).TrueOn b := by
  rw [Sentence.mark_mine]
  split_ifs with hmem
  · rw [Sentence.TrueOn] at h ⊢
    dsimp only at h ⊢
    have hcf : c ∈ st.cells.filter (fun c => c ∈ b.mines) :=
      Finset.mem_filter.mpr ⟨hmem, hc⟩
    rw [Finset.filter_erase, Finset.card_erase_of_mem hcf,
      Nat.cast_sub (Finset.card_pos.mpr ⟨c, hcf⟩)]
    omega
  · exact h

theorem TrueOn_sdiff_nonmines (b : Board) (cells : Finset Cell) (cnt : Int)
    (cs : Finset Cell) (h : Sentence.TrueOn b ⟨cells, cnt⟩)
    (hcs : ∀ x ∈ cs, x ∉ b.mines) :
    Sentence.TrueOn b ⟨cells \ cs, cnt⟩ := by
  rw [Sentence.TrueOn] at h ⊢
  dsimp only at h ⊢
  have heq : (cells \ cs).filter (fun c => c ∈ b.mines)
      = cells.filter (fun c => c ∈ b.mines) := by
    ext x
    simp only [Finset.mem_filter, Finset.mem_sdiff]
    constructor
    · rintro ⟨⟨h1, _⟩, h3⟩
      exact ⟨h1, h3⟩
    · rintro ⟨h1, h3⟩
      exact ⟨⟨h1, fun hxc => hcs x hxc h3⟩, h3⟩
  rw [heq]
  exact h

theorem TrueOn_sdiff_mines (b : Board) (cells : Finset Cell) (cnt : Int)
    (cs : Finset Cell) (h : Sentence.TrueOn b ⟨cells, cnt⟩)
    (hcs : cs ⊆ b.mines) :
    Sentence.TrueOn b ⟨cells \ cs, cnt - ((cells ∩ cs).card : Int)⟩ := by
  rw [Sentence.TrueOn] at h ⊢
  dsimp only at h ⊢
  have hsub : cells ∩ cs ⊆ cells.filter (fun c => c ∈ b.mines) := by
    intro x hx
    rw [Finset.mem_inter] at hx
    exact Finset.mem_filter.mpr ⟨hx.1, hcs hx.2⟩
  have heq : (cells \ cs).filter (fun c => c ∈ b.mines)
      = cells.filter (fun c => c ∈ b.mines) \ (cells ∩ cs) := by
    ext x
    simp only [Finset.mem_filter, Finset.mem_sdiff, Finset.mem_inter]
    constructor
    · rintro ⟨⟨h1, h2⟩, h3⟩
      exact ⟨⟨h1, h3⟩, fun hx => h2 hx.2⟩
    · rintro ⟨⟨h1, h3⟩, h2⟩
      exact ⟨⟨h1, fun hxc => h2 ⟨h1, hxc⟩⟩, h3⟩
  rw [heq, Finset.card_sdiff hsub,
    Nat.cast_sub (Finset.card_le_card hsub)]
  omega

theorem Sound_mark_safe (b : Board) (s : AIState) (c : Cell)
    (h : s.Sound b) (hc : c ∉ b.mines) : (s.mark_safe c).Sound b := by
  obtain ⟨h1, h2, h3, h4, h5, h6⟩ := h
  refine ⟨h1, h2, h3, ?_, h5, ?_⟩
  · intro x hx
    rw [AIState.mark_safe] at hx
    dsimp only at hx
    rcases Finset.mem_insert.mp hx with rfl | hx
    · exact hc
    · exact h4 x hx
  · intro st hst
    rw [AIState.mark_safe] at hst
    dsimp only at hst
    obtain ⟨st0, hst0, rfl⟩ := List.mem_map.mp hst
    exact TrueOn_mark_safe b st0 c (h6 st0 hst0) hc

theorem Sound_mark_mine (b : Board) (s : AIState) (c : Cell)
    (h : s.Sound b) (hc : c ∈ b.mines) : (s.mark_mine c).Sound b := by
  obtain ⟨h1, h2, h3, h4, h5, h6⟩ := h
  refine ⟨h1, h2, ?_, h4, h5, ?_⟩
  · intro x hx
    rw [AIState.mark_mine] at hx
    dsimp only at hx
    rcases Finset.mem_insert.mp hx with rfl | hx
    · exact hc
    · exact h3 hx
  · intro st hst
    rw [AIState.mark_mine] at hst
    dsimp only at hst
    obtain ⟨st0, hst0, rfl⟩ := List.mem_map.mp hst
    exact TrueOn_mark_mine b st0 c (h6 st0 hst0) hc

theorem Sound_mark_safe_all (b : Board) (cs : List Cell) (s : AIState)
    (h : s.Sound b) (hcs : ∀ c ∈ cs, c ∉ b.mines) : (s.mark_safe_all cs).Sound b := by
  induction cs generalizing s with
  | nil => exact h
  | cons c cs ih =>
    rw [AIState.mark_safe_all, List.foldl_cons]
    exact ih (s.mark_safe c)
      (Sound_mark_safe b s c h (hcs c (List.mem_cons_self c cs)))
      (fun x hx => hcs x (List.mem_cons_of_mem c hx))

theorem Sound_mark_mine_all (b : Board) (cs : List Cell) (s : AIState)
    (h : s.Sound b) (hcs : ∀ c ∈ cs, c ∈ b.mines) : (s.mark_mine_all cs).Sound b := by
  induction cs generalizing s with
  | nil => exact h
  | cons c cs ih =>
    rw [AIState.mark_mine_all, List.foldl_cons]
    exact ih (s.mark_mine c)
      (Sound_mark_mine b s c h (hcs c (List.mem_cons_self c cs)))
      (fun x hx => hcs x (List.mem_cons_of_mem c hx))

theorem Sound_mark_safe_set (b : Board) (s : AIState) (cs : Finset Cell)
    (h : s.Sound b) (hcs : ∀ c ∈ cs, c ∉ b.mines) : (s.mark_safe_set cs).Sound b := by
  obtain ⟨h1, h2, h3, h4, h5, h6⟩ := h
  refine ⟨h1, h2, h3, ?_, h5, ?_⟩
  · intro x hx
    rw [AIState.mark_safe_set] at hx
    dsimp only at hx
    rcases Finset.mem_union.mp hx with hx | hx
    · exact h4 x hx
    · exact hcs x hx
  · intro st hst
    rw [AIState.mark_safe_set] at hst
    dsimp only at hst
    obtain ⟨st0, hst0, rfl⟩ := List.mem_map.mp hst
    exact TrueOn_sdiff_nonmines b st0.cells st0.count cs (h6 st0 hst0) hcs

theorem Sound_mark_mine_set (b : Board) (s : AIState) (cs : Finset Cell)
    (h : s.Sound b) (hcs : cs ⊆ b.mines) : (s.mark_mine_set cs).Sound b := by
  obtain ⟨h1, h2, h3, h4, h5, h6⟩ := h
  refine ⟨h1, h2, ?_, h4, h5, ?_⟩
  · intro x hx
    rw [AIState.mark_mine_set] at hx
    dsimp only at hx
    rcases Finset.mem_union.mp hx with hx | hx
    · exact h3 hx
    · exact hcs hx
  · intro st hst
    rw [AIState.mark_mine_set] at hst
    dsimp only at hst
    obtain ⟨st0, hst0, rfl⟩ := List.mem_map.mp hst
    exact TrueOn_sdiff_mines b st0.cells st0.count cs (h6 st0 hst0) hcs

theorem TrueOn_getD (b : Board) (k : List Sentence) (i : Nat)
    (h : ∀ st ∈ k, st.TrueOn b) : (k.getD i default).TrueOn b := by
  by_cases hi : i < k.length
  · rw [List.getD_eq_getElem k default hi]
    exact h _ (List.getElem_mem hi)
  · rw [List.getD_eq_default k default (Nat.le_of_not_lt hi)]
    exact TrueOn_empty b

theorem removing_duplicates_go_mem (item : Sentence) (k : List Sentence) :
    ∀ st ∈ (removing_duplicates.go item k).2, st ∈ k ∨ st = ⟨∅, 0⟩ := by
  induction k with
  | nil =>
    intro st hst
    rw [removing_duplicates.go] at hst
    exact absurd hst (List.not_mem_nil st)
  | cons x xs ih =>
    intro st hst
    rw [removing_duplicates.go] at hst
    split_ifs at hst with hx
    · dsimp only at hst
      rcases List.mem_cons.mp hst with rfl | hst
      · exact Or.inl (List.mem_cons_self _ _)
      · obtain ⟨y, hy, hyeq⟩ := List.mem_map.mp hst
        by_cases hyi : y = item
        · rw [if_pos hyi] at hyeq
          exact Or.inr hyeq.symm
        · rw [if_neg hyi] at hyeq
          exact Or.inl (List.mem_cons_of_mem x (hyeq ▸ hy))
    · dsimp only at hst
      rcases List.mem_cons.mp hst with rfl | hst
      · exact Or.inl (List.mem_cons_self _ _)
      · rcases ih st hst with h | h
        · exact Or.inl (List.mem_cons_of_mem x h)
        · exact Or.inr h

theorem removing_duplicates_mem (item : Sentence) (k : List Sentence) :
    ∀ st ∈ removing_duplicates item k, st ∈ k ∨ st = ⟨∅, 0⟩ := by
  intro st hst
  rw [removing_duplicates] at hst
  split_ifs at hst with hcnt
  · exact removing_duplicates_go_mem item k st hst
  · exact Or.inl hst

theorem TrueOn_diff (b : Board) (s1 s2 : Sentence) (h1 : s1.TrueOn b) (h2 : s2.TrueOn b)
    (hsub : s1.cells ⊆ s2.cells) :
    Sentence.TrueOn b ⟨s2.cells \ s1.cells, |s2.count - s1.count|⟩ := by
  have hfsub : s1.cells.filter (fun c => c ∈ b.mines) ⊆ s2.cells.filter (fun c => c ∈ b.mines) :=
    Finset.filter_subset_filter _ hsub
  have hle := Finset.card_le_card hfsub
  have hnn : 0 ≤ s2.count - s1.count := by
    rw [← h1, ← h2]
    exact sub_nonneg.mpr (Nat.cast_le.mpr hle)
  have heq : (s2.cells \ s1.cells).filter (fun c => c ∈ b.mines)
      = s2.cells.filter (fun c => c ∈ b.mines) \ s1.cells.filter (fun c => c ∈ b.mines) := by
    ext x
    simp only [Finset.mem_filter, Finset.mem_sdiff]
    constructor
    · rintro ⟨⟨ha, hb⟩, hc⟩
      exact ⟨⟨ha, hc⟩, fun hx => hb hx.1⟩
    · rintro ⟨⟨ha, hc⟩, hb⟩
      exact ⟨⟨ha, fun hx => hb ⟨hx, hc⟩⟩, hc⟩
  rw [Sentence.TrueOn]
  dsimp only
  rw [heq, Finset.card_sdiff hfsub, Nat.cast_sub hle, h1, h2, abs_of_nonneg hnn]

theorem Sound_harvest (b : Board) (ai : AIState) (ns : Sentence) (v : Sentence)
    (hai : ai.Sound b) (hns : ns.TrueOn b) :
    AIState.Sound b { (ai.mark_safe_set ns.known_safes).mark_mine_set ns.known_mines with
      knowledge := removing_duplicates v
        ((ai.mark_safe_set ns.known_safes).mark_mine_set ns.known_mines).knowledge } := by
  have h1 := Sound_mark_safe_set b ai ns.known_safes hai (TrueOn_known_safes b ns hns)
  have h2 := Sound_mark_mine_set b _ ns.known_mines h1
    (Finset.subset_iff.mpr (TrueOn_known_mines b ns hns))
  obtain ⟨g1, g2, g3, g4, g5, g6⟩ := h2
  refine ⟨g1, g2, g3, g4, g5, fun st hst => ?_⟩
  rcases removing_duplicates_mem v _ st hst with hmem | heq
  · exact g6 st hmem
  · exact heq ▸ TrueOn_empty b

theorem PassSound_resolvePair (b : Board) (i : Nat) (ps : PassState) (j : Nat)
    (h : PassSound b ps) : PassSound b (resolvePair i ps j) := by
  obtain ⟨hai, hnk⟩ := h
  have hsi : (ps.ai.knowledge.getD i default).TrueOn b :=
    TrueOn_getD b _ i hai.2.2.2.2.2
  have hsj : (ps.ai.knowledge.getD j default).TrueOn b :=
    TrueOn_getD b _ j hai.2.2.2.2.2
  rw [resolvePair]
  dsimp only
  split_ifs with h1 h2 h3 h4 h5 h6 h7 h8 h9
  · exact ⟨hai, hnk⟩
  · exact ⟨Sound_harvest b ps.ai _ _ hai (TrueOn_diff b _ _ hsi hsj h3), hnk⟩
  · exact ⟨hai, hnk⟩
  · refine ⟨hai, fun st hst => ?_⟩
    rcases List.mem_append.mp hst with hm | hm
    · exact hnk st hm
    · rw [List.mem_singleton] at hm
      subst hm
      exact TrueOn_diff b _ _ hsi hsj h3
  · exact ⟨hai, hnk⟩
  · refine ⟨Sound_harvest b ps.ai _ _ hai ?_, hnk⟩
    rw [abs_sub_comm]
    exact TrueOn_diff b _ _ hsj hsi (h2.resolve_left h3)
  · exact ⟨hai, hnk⟩
  · refine ⟨hai, fun st hst => ?_⟩
    rcases List.mem_append.mp hst with hm | hm
    · exact hnk st hm
    · rw [List.mem_singleton] at hm
      subst hm
      rw [abs_sub_comm]
      exact TrueOn_diff b _ _ hsj hsi (h2.resolve_left h3)
  · exact ⟨hai, hnk⟩
  · exact ⟨hai, hnk⟩

theorem PassSound_foldl_resolvePair (b : Board) (i : Nat) (l : List Nat) (ps : PassState)
    (h : PassSound b ps) : PassSound b (l.foldl (resolvePair i) ps) := by
  induction l generalizing ps with
  | nil => exact h
  | cons j l ih =>
    rw [List.foldl_cons]
    exact ih _ (PassSound_resolvePair b i ps j h)

theorem PassSound_outerStep (b : Board) (n : Nat) (ps : PassState) (i : Nat)
    (h : PassSound b ps) : PassSound b (outerStep n ps i) := by
  obtain ⟨hai, hnk⟩ := h
  have hsi : (ps.ai.knowledge.getD i default).TrueOn b :=
    TrueOn_getD b _ i hai.2.2.2.2.2
  rw [outerStep]
  dsimp only
  split_ifs with h1 h2
  · exact ⟨hai, hnk⟩
  · refine PassSound_foldl_resolvePair b i _ _ ⟨?_, hnk⟩
    have hai1 := Sound_mark_safe_set b ps.ai _ hai (TrueOn_known_safes b _ hsi)
    exact Sound_mark_mine_set b _ _ hai1
      (Finset.subset_iff.mpr (TrueOn_known_mines b _ (TrueOn_getD b _ i hai1.2.2.2.2.2)))
  · exact PassSound_foldl_resolvePair b i _ _ ⟨hai, hnk⟩

theorem PassSound_foldl_outerStep (b : Board) (n : Nat) (l : List Nat) (ps : PassState)
    (h : PassSound b ps) : PassSound b (l.foldl (outerStep n) ps) := by
  induction l generalizing ps with
  | nil => exact h
  | cons i l ih =>
    rw [List.foldl_cons]
    exact ih _ (PassSound_outerStep b n ps i h)

theorem mem_foldl_erase (vs : List Sentence) (l : List Sentence) (st : Sentence)
    (h : st ∈ vs.foldl (fun k v => k.erase v) l) : st ∈ l := by
  induction vs generalizing l with
  | nil => exact h
  | cons v vs ih =>
    rw [List.foldl_cons] at h
    exact List.mem_of_mem_erase (ih _ h)

theorem Sound_inferPass (b : Board) (s : AIState) (h : s.Sound b) :
    (inferPass s).1.Sound b ∧ ∀ st ∈ (inferPass s).2, st.TrueOn b := by
  have hp : PassSound b (inferPassAux s) := by
    rw [inferPassAux]
    exact PassSound_foldl_outerStep b _ _ _
      ⟨h, fun st hst => absurd hst (List.not_mem_nil st)⟩
  obtain ⟨⟨g1, g2, g3, g4, g5, g6⟩, hnk⟩ := hp
  refine ⟨⟨g1, g2, g3, g4, g5, fun st hst => ?_⟩, hnk⟩
  rw [inferPass] at hst
  dsimp only at hst
  exact g6 st (mem_foldl_erase _ _ st hst)

theorem Sound_add_knowledge_loop (b : Board) (fuel : Nat) (s : AIState)
    (h : s.Sound b) : (AIState.add_knowledge_loop fuel s).Sound b := by
  induction fuel generalizing s with
  | zero => exact h
  | succ n ih =>
    rw [AIState.add_knowledge_loop]
    split_ifs with hempty
    · exact (Sound_inferPass b s h).1
    · apply ih
      obtain ⟨⟨g1, g2, g3, g4, g5, g6⟩, hnk⟩ := Sound_inferPass b s h
      refine ⟨g1, g2, g3, g4, g5, fun st hst => ?_⟩
      rcases List.mem_append.mp hst with hm | hm
      · exact g6 st hm
      · exact hnk st hm

theorem nearby_mines_eq_filter_length (b : Board) (s : AIState) (cell : Cell)
    (hh : s.height = b.height) (hw : s.width = b.width) :
    b.nearby_mines cell
      = (((s.nearby_cells cell).filter (fun q => decide (q ∈ b.mines)))).length := by
  obtain ⟨r, c⟩ := cell
  have hnodupN := nearby_cells_nodup s (r, c)
  rw [Board.nearby_mines]
  simp only [List.map_cons, List.map_nil, List.flatten_cons, List.flatten_nil,
    List.cons_append, List.nil_append, List.append_nil]
  have hnodupC : ([((r:Int) - 1, (c:Int) - 1), (r - 1, c), (r - 1, c + 1),
      (r, c - 1), (r, c), (r, c + 1),
      (r + 1, c - 1), (r + 1, c), (r + 1, c + 1)] : List Cell).Nodup := by
    simp [List.nodup_cons, Prod.ext_iff]
    omega
  rw [← List.toFinset_card_of_nodup (hnodupC.filter _),
    ← List.toFinset_card_of_nodup (hnodupN.filter _),
    List.toFinset_filter, List.toFinset_filter, Nat.cast_inj]
  apply congrArg Finset.card
  ext x
  obtain ⟨x1, x2⟩ := x
  simp only [Finset.mem_filter, List.mem_toFinset, List.mem_cons, List.not_mem_nil,
    or_false, nearby_cells_mem, Board.inGrid, Prod.ext_iff, decide_eq_true_eq,
    ne_eq, abs_le, hh, hw]
  constructor
  · rintro ⟨hmem, hne, hgrid, hmine⟩
    refine ⟨⟨hne, ?_, ?_, ?_, ?_, ?_, ?_⟩, hmine⟩ <;> omega
  · rintro ⟨⟨hne, hd1, hd2, hb1, hb2, hb3, hb4⟩, hmine⟩
    exact ⟨by omega, hne, ⟨hb1, hb2, hb3, hb4⟩, hmine⟩

theorem length_filter_split {α : Type} (p q : α → Bool) (l : List α) :
    (l.filter p).length
      = (l.filter (fun a => p a && q a)).length
        + (l.filter (fun a => p a && !q a)).length := by
  induction l with
  | nil => rfl
  | cons a l ih =>
    cases hp : p a <;> cases hq : q a <;>
      simp [List.filter_cons, hp, hq] <;>
      omega

theorem TrueOn_partition_sentence (b : Board) (s3 : AIState) (cell : Cell) (count : Int)
    (hh : s3.height = b.height) (hw : s3.width = b.width)
    (hm : s3.mines ⊆ b.mines) (hsafe : ∀ c ∈ s3.safes, c ∉ b.mines)
    (hmoves : ∀ c ∈ s3.moves_made, c ∉ b.mines)
    (hcount : count = b.nearby_mines cell) :
    Sentence.TrueOn b
      ⟨((s3.nearby_cells cell).filter (fun nb =>
          decide (nb ∉ s3.mines ∧ nb ∉ s3.moves_made ∧ nb ∉ s3.safes))).toFinset,
       count - (((s3.nearby_cells cell).filter (fun nb => decide (nb ∈ s3.mines))).length : Int)⟩ := by
  have hnd := nearby_cells_nodup s3 cell
  rw [Sentence.TrueOn]
  dsimp only
  have hcard : (((s3.nearby_cells cell).filter (fun nb =>
        decide (nb ∉ s3.mines ∧ nb ∉ s3.moves_made ∧ nb ∉ s3.safes))).toFinset.filter
          (fun c => c ∈ b.mines)).card
      = (((s3.nearby_cells cell).filter (fun nb =>
          decide (nb ∉ s3.mines ∧ nb ∉ s3.moves_made ∧ nb ∉ s3.safes))).filter
            (fun c => decide (c ∈ b.mines))).length := by
    rw [← List.toFinset_card_of_nodup ((hnd.filter _).filter _), List.toFinset_filter]
    apply congrArg Finset.card
    ext x
    simp
    tauto
  rw [hcard]
  have hsplit := length_filter_split (fun q => decide (q ∈ b.mines))
    (fun q => decide (q ∈ s3.mines)) (s3.nearby_cells cell)
  have hA : (s3.nearby_cells cell).filter
        (fun a => decide (a ∈ b.mines) && decide (a ∈ s3.mines))
      = (s3.nearby_cells cell).filter (fun a => decide (a ∈ s3.mines)) := by
    apply List.filter_congr
    intro a _
    by_cases hs : a ∈ s3.mines
    · simp [hs, hm hs]
    · simp [hs]
  have hB : ((s3.nearby_cells cell).filter (fun nb =>
        decide (nb ∉ s3.mines ∧ nb ∉ s3.moves_made ∧ nb ∉ s3.safes))).filter
          (fun c => decide (c ∈ b.mines))
      = (s3.nearby_cells cell).filter
          (fun a => decide (a ∈ b.mines) && !decide (a ∈ s3.mines)) := by
    rw [List.filter_filter]
    apply List.filter_congr
    intro a _
    by_cases hmine : a ∈ b.mines
    · by_cases hs : a ∈ s3.mines
      · simp [hmine, hs]
      · have h1 : a ∉ s3.moves_made := fun hc => absurd hmine (hmoves a hc)
        have h2 : a ∉ s3.safes := fun hc => absurd hmine (hsafe a hc)
        simp [hmine, hs, h1, h2]
    · simp [hmine]
  rw [hB]
  have hbr := nearby_mines_eq_filter_length b s3 cell hh hw
  rw [hA] at hsplit
  rw [hcount, hbr]
  omega

theorem Sound_add_knowledge_base (b : Board) (s : AIState) (cell : Cell) (count : Int)
    (h : s.Sound b) (hcell : cell ∉ b.mines) (hcount : count = b.nearby_mines cell) :
    (s.add_knowledge_base cell count).Sound b := by
  obtain ⟨hh, hw, hm, hsafe, hmoves, hk⟩ := h
  have hs1 : AIState.Sound b { s with moves_made := insert cell s.moves_made } :=
    ⟨hh, hw, hm, hsafe, fun c hc => by
      rcases Finset.mem_insert.mp hc with rfl | hc
      · exact hcell
      · exact hmoves c hc, hk⟩
  have hs2 := Sound_mark_safe b _ cell hs1 hcell
  have hs3 : AIState.Sound b
      { ({ s with moves_made := insert cell s.moves_made }.mark_safe cell) with
        pending_cells :=
          ({ s with moves_made := insert cell s.moves_made }.mark_safe cell).pending_cells - 1 } :=
    ⟨hs2.1, hs2.2.1, hs2.2.2.1, hs2.2.2.2.1, hs2.2.2.2.2.1, hs2.2.2.2.2.2⟩
  have hbr := nearby_mines_eq_filter_length b
    ({ s with moves_made := insert cell s.moves_made }.mark_safe cell) cell hs2.1 hs2.2.1
  rw [AIState.add_knowledge_base]
  dsimp only
  split_ifs with h0 hlen hmem
  · -- count = 0: every in-grid neighbour is a non-mine
    apply Sound_mark_safe_all b _ _ hs3
    intro nb hnb
    have hlen0 : (((({ s with moves_made := insert cell s.moves_made }.mark_safe
        cell)).nearby_cells cell).filter (fun q => decide (q ∈ b.mines))).length = 0 := by
      omega
    intro hmine
    have hnb2 : nb ∈ (({ s with moves_made := insert cell s.moves_made }.mark_safe
        cell)).nearby_cells cell := hnb
    have := List.filter_eq_nil_iff.mp (List.length_eq_zero.mp hlen0) nb hnb2
    simp [hmine] at this
  · -- all neighbours are mines
    apply Sound_mark_mine_all b _ _ hs3
    intro nb hnb
    have hlen2 : (((({ s with moves_made := insert cell s.moves_made }.mark_safe
        cell)).nearby_cells cell).length : Int) = count := hlen
    have hfull : (((({ s with moves_made := insert cell s.moves_made }.mark_safe
          cell)).nearby_cells cell).filter (fun q => decide (q ∈ b.mines))).length
        = ((({ s with moves_made := insert cell s.moves_made }.mark_safe
          cell)).nearby_cells cell).length := by
      omega
    have hnb2 : nb ∈ (({ s with moves_made := insert cell s.moves_made }.mark_safe
        cell)).nearby_cells cell := hnb
    have := List.filter_length_eq_length.mp hfull nb hnb2
    simpa using this
  · exact hs3
  · obtain ⟨g1, g2, g3, g4, g5, g6⟩ := hs3
    refine ⟨g1, g2, g3, g4, g5, fun st hst => ?_⟩
    rcases List.mem_append.mp hst with hm1 | hm1
    · exact g6 st hm1
    · rw [List.mem_singleton] at hm1
      subst hm1
      rw [partition_foldl]
      have := TrueOn_partition_sentence b
        { ({ s with moves_made := insert cell s.moves_made }.mark_safe cell) with
          pending_cells :=
            ({ s with moves_made := insert cell s.moves_made }.mark_safe cell).pending_cells - 1 }
        cell count g1 g2 g3 g4 g5 hcount
      simpa [Finset.empty_union] using this

theorem Sound_runTrace (b : Board) (fuel : Nat) (tr : List (Cell × Int)) (s : AIState)
    (h : s.Sound b) (hcons : b.consistentTrace tr) :
    (AIState.runTrace fuel s tr).Sound b := by
  induction tr generalizing s with
  | nil => exact h
  | cons p tr ih =>
    obtain ⟨_, hnm, hcnt⟩ := hcons p (List.mem_cons_self p tr)
    rw [AIState.runTrace]
    apply ih
    · rw [AIState.add_knowledge]
      exact Sound_add_knowledge_loop b fuel _
        (Sound_add_knowledge_base b s p.1 p.2 h hnm hcnt)
    · exact fun q hq => hcons q (List.mem_cons_of_mem p hq)

theorem Sound_init (b : Board) : (AIState.init b.height b.width).Sound b := by
  refine ⟨rfl, rfl, Finset.empty_subset _, ?_, ?_, ?_⟩
  · intro c hc
    exact absurd hc (Finset.not_mem_empty c)
  · intro c hc
    exact absurd hc (Finset.not_mem_empty c)
  · intro st hst
    exact absurd hst (List.not_mem_nil st)

/-- C5: after any sequence of `add_knowledge` calls whose counts are
consistent with a real board, the known-mines and known-safes sets are
disjoint. -/
theorem C5_mines_safes_disjoint (b : Board) (fuel : Nat) (tr : List (Cell × Int))
    (hcons : b.consistentTrace tr) :
    (AIState.runTrace fuel (AIState.init b.height b.width) tr).mines ∩
      (AIState.runTrace fuel (AIState.init b.height b.width) tr).safes = ∅ := by
  obtain ⟨_, _, g3, g4, _, _⟩ := Sound_runTrace b fuel tr _ (Sound_init b) hcons
  refine Finset.eq_empty_iff_forall_not_mem.mpr (fun x hx => ?_)
  rw [Finset.mem_inter] at hx
  exact g4 x hx.2 (g3 hx.1)

theorem C5_mines_safes_disjoint_witness :
    (AIState.runTrace 2 (AIState.init 2 2) [((0,0), 1), ((0,1), 1)]).mines ∩
      (AIState.runTrace 2 (AIState.init 2 2) [((0,0), 1), ((0,1), 1)]).safes = ∅ :=
  C5_mines_safes_disjoint ⟨2, 2, {(1,1)}⟩ 2 [((0,0), 1), ((0,1), 1)] (by decide)

theorem KC1_length (n : Nat) : (KC1 n).length = n + 2 := by
  simp [KC1]

theorem KC1_getD_zero (n : Nat) :
    (KC1 n).getD 0 default = ⟨{(0,2), (1,2)}, -1⟩ := rfl

theorem KC1_getD_one (n : Nat) :
    (KC1 n).getD 1 default = ⟨{(0,2)}, -3⟩ := rfl

theorem KC1_getD_two (n i : Nat) (h : i < n) :
    (KC1 n).getD (i + 2) default = tC1 i := by
  show ((List.range n).map tC1).getD i default = tC1 i
  rw [List.getD_eq_getElem _ _ (by simpa using h)]
  simp

theorem mem_KC1 (n : Nat) (st : Sentence) :
    st ∈ KC1 n ↔
      st = ⟨{(0,2), (1,2)}, -1⟩ ∨ st = ⟨{(0,2)}, -3⟩ ∨ ∃ i < n, st = tC1 i := by
  simp [KC1, List.mem_map, eq_comm]

theorem tC1_count (i : Nat) : (tC1 i).count = (i : Int) + 2 := rfl

theorem tC1_notin_KC1 (n : Nat) : tC1 n ∉ KC1 n := by
  rw [mem_KC1]
  push_neg
  refine ⟨?_, ?_, ?_⟩
  · intro h
    have := congrArg Sentence.count h
    rw [tC1_count] at this
    dsimp at this
    omega
  · intro h
    have := congrArg Sentence.count h
    rw [tC1_count] at this
    dsimp at this
    omega
  · intro i hi h
    have := congrArg Sentence.count h
    rw [tC1_count, tC1_count] at this
    omega

theorem resolvePair_self (i : Nat) (ps : PassState) : resolvePair i ps i = ps := by
  rw [resolvePair]
  dsimp only
  rw [if_pos rfl]

theorem outerStep_one_newK (ps : PassState) : (outerStep 1 ps 0).newK = ps.newK := by
  have hr1 : List.range 1 = [0] := rfl
  rw [outerStep]
  dsimp only
  split_ifs with h1 h2
  · rfl
  · rw [hr1, List.foldl_cons, List.foldl_nil, resolvePair_self]
  · rw [hr1, List.foldl_cons, List.foldl_nil, resolvePair_self]

theorem inferPass_short (s : AIState) (h : s.knowledge.length ≤ 1) :
    (inferPass s).2 = [] := by
  rw [inferPass]
  dsimp only
  rcases hk : s.knowledge with _ | ⟨st, _ | ⟨st2, k⟩⟩
  · rw [inferPassAux, hk]
    rfl
  · rw [inferPassAux, hk]
    show (List.foldl (outerStep 1) ⟨s, [], []⟩ [0]).newK = []
    rw [List.foldl_cons, List.foldl_nil, outerStep_one_newK]
  · rw [hk] at h
    simp at h

theorem add_knowledge_base_init_short (h w : Nat) (cell : Cell) (count : Int) :
    ((AIState.init h w).add_knowledge_base cell count).knowledge.length ≤ 1 := by
  rw [AIState.init, AIState.add_knowledge_base]
  dsimp only
  split_ifs with h0 hlen hmem
  · rw [(mark_safe_all_sets _ _).2.2]
    simp [AIState.mark_safe]
  · rw [(mark_mine_all_sets _ _).2.2]
    simp [AIState.mark_safe]
  · simp [AIState.mark_safe]
  · simp [AIState.mark_safe]

/-- C1 amended: the propagation loop triggered by the first observation on a
freshly initialised agent always breaks out of its first pass, for any grid
size, probed cell, reported count, and positive fuel. -/
theorem C1_amended_first_call (h w : Nat) (cell : Cell) (count : Int) (fuel : Nat) :
    (AIState.add_knowledge_loopO (fuel + 1)
      ((AIState.init h w).add_knowledge_base cell count)).isSome := by
  rw [AIState.add_knowledge_loopO]
  simp [inferPass_short _ (add_knowledge_base_init_short h w cell count)]

theorem base_C1 : stC1.add_knowledge_base (0,0) 3 = AC1 0 := by decide

theorem resolvePair_cells_eq (i j : Nat) (ps : PassState)
    (h : (ps.ai.knowledge.getD i default).cells = (ps.ai.knowledge.getD j default).cells) :
    resolvePair i ps j = ps := by
  rw [resolvePair]
  dsimp only
  by_cases he : ps.ai.knowledge.getD i default = ps.ai.knowledge.getD j default
  · rw [if_pos he]
  · rw [if_neg he, if_pos (Or.inl (h ▸ Finset.Subset.refl _)), h]
    simp

theorem resolvePair_no_subset (i j : Nat) (ps : PassState)
    (h1 : ¬ (ps.ai.knowledge.getD i default).cells ⊆ (ps.ai.knowledge.getD j default).cells)
    (h2 : ¬ (ps.ai.knowledge.getD j default).cells ⊆ (ps.ai.knowledge.getD i default).cells) :
    resolvePair i ps j = ps := by
  rw [resolvePair]
  dsimp only
  by_cases he : ps.ai.knowledge.getD i default = ps.ai.knowledge.getD j default
  · rw [if_pos he]
  · rw [if_neg he, if_neg (by tauto)]

theorem resolvePair_skip_mem_sup (i j : Nat) (ps : PassState)
    (h0 : ps.ai.knowledge.getD i default ≠ ps.ai.knowledge.getD j default)
    (h1 : ¬ (ps.ai.knowledge.getD i default).cells ⊆ (ps.ai.knowledge.getD j default).cells)
    (h2 : (ps.ai.knowledge.getD j default).cells ⊆ (ps.ai.knowledge.getD i default).cells)
    (h4 : ¬ ((((ps.ai.knowledge.getD i default).cells \ (ps.ai.knowledge.getD j default).cells).card : Int)
        = |(ps.ai.knowledge.getD j default).count - (ps.ai.knowledge.getD i default).count| ∨
      |(ps.ai.knowledge.getD j default).count - (ps.ai.knowledge.getD i default).count| = 0))
    (h5 : (⟨(ps.ai.knowledge.getD i default).cells \ (ps.ai.knowledge.getD j default).cells,
        |(ps.ai.knowledge.getD j default).count - (ps.ai.knowledge.getD i default).count|⟩ : Sentence)
        ∈ ps.ai.knowledge ∨
      (⟨(ps.ai.knowledge.getD i default).cells \ (ps.ai.knowledge.getD j default).cells,
        |(ps.ai.knowledge.getD j default).count - (ps.ai.knowledge.getD i default).count|⟩ : Sentence)
        ∈ ps.newK) :
    resolvePair i ps j = ps := by
  rw [resolvePair]
  dsimp only
  rw [if_neg h0, if_pos (Or.inr h2), if_neg h1, if_neg h1]
  split_ifs with hne <;> rfl

theorem resolvePair_skip_mem_sub (i j : Nat) (ps : PassState)
    (h0 : ps.ai.knowledge.getD i default ≠ ps.ai.knowledge.getD j default)
    (h1 : (ps.ai.knowledge.getD i default).cells ⊆ (ps.ai.knowledge.getD j default).cells)
    (h4 : ¬ ((((ps.ai.knowledge.getD j default).cells \ (ps.ai.knowledge.getD i default).cells).card : Int)
        = |(ps.ai.knowledge.getD j default).count - (ps.ai.knowledge.getD i default).count| ∨
      |(ps.ai.knowledge.getD j default).count - (ps.ai.knowledge.getD i default).count| = 0))
    (h5 : (⟨(ps.ai.knowledge.getD j default).cells \ (ps.ai.knowledge.getD i default).cells,
        |(ps.ai.knowledge.getD j default).count - (ps.ai.knowledge.getD i default).count|⟩ : Sentence)
        ∈ ps.ai.knowledge ∨
      (⟨(ps.ai.knowledge.getD j default).cells \ (ps.ai.knowledge.getD i default).cells,
        |(ps.ai.knowledge.getD j default).count - (ps.ai.knowledge.getD i default).count|⟩ : Sentence)
        ∈ ps.newK) :
    resolvePair i ps j = ps := by
  rw [resolvePair]
  dsimp only
  rw [if_neg h0, if_pos (Or.inl h1), if_pos h1, if_pos h1]
  split_ifs with hne <;> rfl

theorem resolvePair_add_sup (i j : Nat) (ps : PassState)
    (h0 : ps.ai.knowledge.getD i default ≠ ps.ai.knowledge.getD j default)
    (h1 : ¬ (ps.ai.knowledge.getD i default).cells ⊆ (ps.ai.knowledge.getD j default).cells)
    (h2 : (ps.ai.knowledge.getD j default).cells ⊆ (ps.ai.knowledge.getD i default).cells)
    (h3 : (ps.ai.knowledge.getD i default).cells \ (ps.ai.knowledge.getD j default).cells ≠ ∅)
    (h4 : ¬ ((((ps.ai.knowledge.getD i default).cells \ (ps.ai.knowledge.getD j default).cells).card : Int)
        = |(ps.ai.knowledge.getD j default).count - (ps.ai.knowledge.getD i default).count| ∨
      |(ps.ai.knowledge.getD j default).count - (ps.ai.knowledge.getD i default).count| = 0))
    (h5 : ¬ ((⟨(ps.ai.knowledge.getD i default).cells \ (ps.ai.knowledge.getD j default).cells,
        |(ps.ai.knowledge.getD j default).count - (ps.ai.knowledge.getD i default).count|⟩ : Sentence)
        ∈ ps.ai.knowledge ∨
      (⟨(ps.ai.knowledge.getD i default).cells \ (ps.ai.knowledge.getD j default).cells,
        |(ps.ai.knowledge.getD j default).count - (ps.ai.knowledge.getD i default).count|⟩ : Sentence)
        ∈ ps.newK)) :
    resolvePair i ps j = { ps with newK := ps.newK ++
      [⟨(ps.ai.knowledge.getD i default).cells \ (ps.ai.knowledge.getD j default).cells,
        |(ps.ai.knowledge.getD j default).count - (ps.ai.knowledge.getD i default).count|⟩] } := by
  rw [resolvePair]
  dsimp only
  rw [if_neg h0, if_pos (Or.inr h2), if_neg h1, if_neg h1, if_pos h3, if_neg h4, if_neg h5]

theorem tC1_cells (i : Nat) :
    (tC1 i).cells = if i % 2 = 0 then {(1,2)} else {(0,2)} := rfl

theorem s0_ne_tC1 (k : Nat) : (⟨{(0,2), (1,2)}, -1⟩ : Sentence) ≠ tC1 k := by
  intro he
  have hc := congrArg Sentence.count he
  rw [tC1_count] at hc
  dsimp at hc
  omega

theorem s1_ne_tC1 (k : Nat) : (⟨{(0,2)}, -3⟩ : Sentence) ≠ tC1 k := by
  intro he
  have hc := congrArg Sentence.count he
  rw [tC1_count] at hc
  dsimp at hc
  omega

theorem tC1_cells_not_sub_s0 (k : Nat) :
    ¬ ({(0,2), (1,2)} : Finset Cell) ⊆ (tC1 k).cells := by
  rw [tC1_cells]
  rcases Nat.mod_two_eq_zero_or_one k with hp | hp
  · rw [if_pos hp]
    decide
  · rw [if_neg (by omega)]
    decide

theorem tC1_cells_sub_s0 (k : Nat) :
    (tC1 k).cells ⊆ ({(0,2), (1,2)} : Finset Cell) := by
  rw [tC1_cells]
  rcases Nat.mod_two_eq_zero_or_one k with hp | hp
  · rw [if_pos hp]
    decide
  · rw [if_neg (by omega)]
    decide

theorem diff_s0_tC1 (k : Nat) :
    (⟨({(0,2), (1,2)} : Finset Cell) \ (tC1 k).cells,
      |(tC1 k).count - (⟨{(0,2), (1,2)}, -1⟩ : Sentence).count|⟩ : Sentence) = tC1 (k + 1) := by
  rw [tC1_cells, tC1_count]
  rcases Nat.mod_two_eq_zero_or_one k with hp | hp
  · have hp1 : (k + 1) % 2 = 1 := by omega
    rw [if_pos hp]
    show (⟨_, _⟩ : Sentence) = ⟨if (k+1) % 2 = 0 then {(1,2)} else {(0,2)}, ((k:Int) + 1) + 2⟩
    rw [if_neg (by omega)]
    refine congrArg₂ Sentence.mk (by decide) ?_
    dsimp
    rw [abs_of_nonneg (by omega)]
    ring
  · rw [if_neg (by omega)]
    show (⟨_, _⟩ : Sentence) = ⟨if (k+1) % 2 = 0 then {(1,2)} else {(0,2)}, ((k:Int) + 1) + 2⟩
    rw [if_pos (by omega)]
    refine congrArg₂ Sentence.mk (by decide) ?_
    dsimp
    rw [abs_of_nonneg (by omega)]
    ring

theorem card_diff_s0_tC1 (k : Nat) :
    ((({(0,2), (1,2)} : Finset Cell) \ (tC1 k).cells).card : Int) = 1 := by
  rw [tC1_cells]
  rcases Nat.mod_two_eq_zero_or_one k with hp | hp
  · rw [if_pos hp]
    decide
  · rw [if_neg (by omega)]
    decide

theorem abs_tC1_s0 (k : Nat) :
    |(tC1 k).count - (⟨{(0,2), (1,2)}, -1⟩ : Sentence).count| = (k : Int) + 3 := by
  rw [tC1_count]
  dsimp
  rw [abs_of_nonneg (by omega)]
  ring

theorem rp0_skip (n : Nat) (j : Nat) (hj : j < n + 1) :
    resolvePair 0 ⟨AC1 n, [], []⟩ j = ⟨AC1 n, [], []⟩ := by
  have hg0 : (⟨AC1 n, [], []⟩ : PassState).ai.knowledge.getD 0 default
      = ⟨{(0,2), (1,2)}, -1⟩ := rfl
  match j, hj with
  | 0, _ => exact resolvePair_cells_eq 0 0 _ rfl
  | 1, hj =>
    have hn : 0 < n := by omega
    refine resolvePair_skip_mem_sup 0 1 ⟨AC1 n, [], []⟩
      (show (⟨{(0,2), (1,2)}, -1⟩ : Sentence) ≠ ⟨{(0,2)}, -3⟩ by decide)
      (show ¬ ({(0,2), (1,2)} : Finset Cell) ⊆ {(0,2)} by decide)
      (show ({(0,2)} : Finset Cell) ⊆ {(0,2), (1,2)} by decide)
      (show ¬ (((({(0,2), (1,2)} : Finset Cell) \ {(0,2)}).card : Int) = |(-3 : Int) - (-1)| ∨
        |(-3 : Int) - (-1)| = 0) by decide) ?_
    exact Or.inl ((mem_KC1 n (tC1 0)).mpr (Or.inr (Or.inr ⟨0, hn, rfl⟩)))
  | (k+2), hj =>
    have hk : k < n := by omega
    have hk1 : k + 1 < n := by omega
    have hgj : (⟨AC1 n, [], []⟩ : PassState).ai.knowledge.getD (k+2) default
        = tC1 k := KC1_getD_two n k hk
    refine resolvePair_skip_mem_sup 0 (k+2) ⟨AC1 n, [], []⟩ ?_ ?_ ?_ ?_ ?_
    · rw [hgj]
      exact s0_ne_tC1 k
    · rw [hgj]
      exact tC1_cells_not_sub_s0 k
    · rw [hgj]
      exact tC1_cells_sub_s0 k
    · rw [hgj, hg0, card_diff_s0_tC1 k, abs_tC1_s0 k]
      omega
    · rw [hgj, hg0, diff_s0_tC1 k]
      exact Or.inl ((mem_KC1 n (tC1 (k+1))).mpr (Or.inr (Or.inr ⟨k+1, hk1, rfl⟩)))

theorem diff_s0_tC1_ne_empty (k : Nat) :
    ({(0,2), (1,2)} : Finset Cell) \ (tC1 k).cells ≠ ∅ := by
  rw [tC1_cells]
  rcases Nat.mod_two_eq_zero_or_one k with hp | hp
  · rw [if_pos hp]
    decide
  · rw [if_neg (by omega)]
    decide

theorem rp0_last (n : Nat) :
    resolvePair 0 ⟨AC1 n, [], []⟩ (n + 1) = ⟨AC1 n, [], [tC1 n]⟩ := by
  match n with
  | 0 => decide
  | (m+1) =>
    have hg0 : (⟨AC1 (m+1), [], []⟩ : PassState).ai.knowledge.getD 0 default
        = ⟨{(0,2), (1,2)}, -1⟩ := rfl
    have hgj : (⟨AC1 (m+1), [], []⟩ : PassState).ai.knowledge.getD (m+2) default
        = tC1 m := KC1_getD_two (m+1) m (by omega)
    have hadd := resolvePair_add_sup 0 (m+2) ⟨AC1 (m+1), [], []⟩
      (by rw [hgj]; exact s0_ne_tC1 m)
      (by rw [hgj]; exact tC1_cells_not_sub_s0 m)
      (by rw [hgj]; exact tC1_cells_sub_s0 m)
      (by rw [hgj, hg0]; exact diff_s0_tC1_ne_empty m)
      (by rw [hgj, hg0, card_diff_s0_tC1 m, abs_tC1_s0 m]; omega)
      (by
        rw [hgj, hg0, diff_s0_tC1 m]
        rintro (hmem | hmem)
        · exact tC1_notin_KC1 (m+1) hmem
        · exact List.not_mem_nil _ hmem)
    rw [hadd]
    exact congrArg (PassState.mk (AC1 (m+1)) [])
      (by rw [List.nil_append, hgj, hg0, diff_s0_tC1 m])

theorem foldl_fixed {α : Type} (f : PassState → α → PassState) (l : List α) (ps : PassState)
    (h : ∀ x ∈ l, f ps x = ps) : l.foldl f ps = ps := by
  induction l with
  | nil => rfl
  | cons a l ih =>
    rw [List.foldl_cons, h a (List.mem_cons_self a l)]
    exact ih (fun x hx => h x (List.mem_cons_of_mem a hx))

theorem outer0_AC1 (n : Nat) :
    outerStep (n + 2) ⟨AC1 n, [], []⟩ 0 = ⟨AC1 n, [], [tC1 n]⟩ := by
  have hg0 : (AC1 n).knowledge.getD 0 default = ⟨{(0,2), (1,2)}, -1⟩ := rfl
  rw [outerStep]
  dsimp only
  rw [hg0]
  dsimp only
  rw [if_neg (show ¬ (({(0,2), (1,2)} : Finset Cell) = ∅) by decide)]
  rw [if_neg (show ¬ ((-1 : Int) = 0 ∨ ((({(0,2), (1,2)} : Finset Cell).card : Int) = -1))
    by decide)]
  rw [List.range_succ, List.foldl_append,
    foldl_fixed _ _ _ (fun j hj => rp0_skip n j (List.mem_range.mp hj))]
  simp only [List.foldl_cons, List.foldl_nil]
  exact rp0_last n

theorem abs_s0_tC1 (k : Nat) :
    |(⟨{(0,2), (1,2)}, -1⟩ : Sentence).count - (tC1 k).count| = (k : Int) + 3 := by
  rw [abs_sub_comm]
  exact abs_tC1_s0 k

theorem diff_s0_tC1_symm (k : Nat) :
    (⟨({(0,2), (1,2)} : Finset Cell) \ (tC1 k).cells,
      |(⟨{(0,2), (1,2)}, -1⟩ : Sentence).count - (tC1 k).count|⟩ : Sentence) = tC1 (k + 1) := by
  rw [abs_sub_comm]
  exact diff_s0_tC1 k

theorem rp_later_skip (n i : Nat) (hi2 : i < n + 2) (j : Nat) (hj : j < n + 2) :
    1 ≤ i → resolvePair i ⟨AC1 n, [], [tC1 n]⟩ j = ⟨AC1 n, [], [tC1 n]⟩ := by
  intro hi
  have hg0 : (⟨AC1 n, [], [tC1 n]⟩ : PassState).ai.knowledge.getD 0 default
      = ⟨{(0,2), (1,2)}, -1⟩ := rfl
  have hg1 : (⟨AC1 n, [], [tC1 n]⟩ : PassState).ai.knowledge.getD 1 default
      = ⟨{(0,2)}, -3⟩ := rfl
  match i, hi, hi2 with
  | 1, _, _ =>
    match j, hj with
    | 0, _ =>
      refine resolvePair_skip_mem_sub 1 0 ⟨AC1 n, [], [tC1 n]⟩
        (show (⟨{(0,2)}, -3⟩ : Sentence) ≠ ⟨{(0,2), (1,2)}, -1⟩ by decide)
        (show ({(0,2)} : Finset Cell) ⊆ {(0,2), (1,2)} by decide)
        (show ¬ (((({(0,2), (1,2)} : Finset Cell) \ {(0,2)}).card : Int)
            = |(-1 : Int) - (-3)| ∨ |(-1 : Int) - (-3)| = 0) by decide) ?_
      by_cases hn : n = 0
      · subst hn
        exact Or.inr (show tC1 0 ∈ [tC1 0] from List.mem_singleton.mpr rfl)
      · exact Or.inl ((mem_KC1 n (tC1 0)).mpr (Or.inr (Or.inr ⟨0, by omega, rfl⟩)))
    | 1, _ => exact resolvePair_cells_eq 1 1 _ rfl
    | (m+2), hj =>
      have hm : m < n := by omega
      have hgj : (⟨AC1 n, [], [tC1 n]⟩ : PassState).ai.knowledge.getD (m+2) default
          = tC1 m := KC1_getD_two n m hm
      rcases Nat.mod_two_eq_zero_or_one m with hp | hp
      · refine resolvePair_no_subset 1 (m+2) _ ?_ ?_
        · rw [hgj, tC1_cells, if_pos hp]
          exact (show ¬ ({(0,2)} : Finset Cell) ⊆ {(1,2)} by decide)
        · rw [hgj, tC1_cells, if_pos hp]
          exact (show ¬ ({(1,2)} : Finset Cell) ⊆ {(0,2)} by decide)
      · refine resolvePair_cells_eq 1 (m+2) _ ?_
        rw [hgj, tC1_cells, if_neg (show ¬ (m % 2 = 0) by omega)]
        rfl
  | (k+2), _, hi2 =>
    have hk : k < n := by omega
    have hgi : (⟨AC1 n, [], [tC1 n]⟩ : PassState).ai.knowledge.getD (k+2) default
        = tC1 k := KC1_getD_two n k hk
    match j, hj with
    | 0, _ =>
      refine resolvePair_skip_mem_sub (k+2) 0 ⟨AC1 n, [], [tC1 n]⟩ ?_ ?_ ?_ ?_
      · rw [hgi, hg0]
        exact (s0_ne_tC1 k).symm
      · rw [hgi, hg0]
        exact tC1_cells_sub_s0 k
      · rw [hgi, hg0, card_diff_s0_tC1 k, abs_s0_tC1 k]
        omega
      · rw [hgi, hg0, diff_s0_tC1_symm k]
        by_cases hkn : k + 1 = n
        · exact Or.inr (by rw [hkn]; exact List.mem_singleton.mpr rfl)
        · exact Or.inl ((mem_KC1 n (tC1 (k+1))).mpr (Or.inr (Or.inr ⟨k+1, by omega, rfl⟩)))
    | 1, _ =>
      rcases Nat.mod_two_eq_zero_or_one k with hp | hp
      · refine resolvePair_no_subset (k+2) 1 _ ?_ ?_
        · rw [hgi, hg1, tC1_cells, if_pos hp]
          exact (show ¬ ({(1,2)} : Finset Cell) ⊆ {(0,2)} by decide)
        · rw [hgi, hg1, tC1_cells, if_pos hp]
          exact (show ¬ ({(0,2)} : Finset Cell) ⊆ {(1,2)} by decide)
      · refine resolvePair_cells_eq (k+2) 1 _ ?_
        rw [hgi, hg1, tC1_cells, if_neg (show ¬ (k % 2 = 0) by omega)]
    | (m+2), hj =>
      have hm : m < n := by omega
      have hgj : (⟨AC1 n, [], [tC1 n]⟩ : PassState).ai.knowledge.getD (m+2) default
          = tC1 m := KC1_getD_two n m hm
      by_cases hpar : k % 2 = m % 2
      · refine resolvePair_cells_eq (k+2) (m+2) _ ?_
        rw [hgi, hgj, tC1_cells, tC1_cells, hpar]
      · rcases Nat.mod_two_eq_zero_or_one k with hpk | hpk <;>
          rcases Nat.mod_two_eq_zero_or_one m with hpm | hpm
        · exact absurd (hpk.trans hpm.symm) hpar
        · refine resolvePair_no_subset (k+2) (m+2) _ ?_ ?_
          · rw [hgi, hgj, tC1_cells, tC1_cells, if_pos hpk,
              if_neg (show ¬ (m % 2 = 0) by omega)]
            exact (show ¬ ({(1,2)} : Finset Cell) ⊆ {(0,2)} by decide)
          · rw [hgi, hgj, tC1_cells, tC1_cells, if_pos hpk,
              if_neg (show ¬ (m % 2 = 0) by omega)]
            exact (show ¬ ({(0,2)} : Finset Cell) ⊆ {(1,2)} by decide)
        · refine resolvePair_no_subset (k+2) (m+2) _ ?_ ?_
          · rw [hgi, hgj, tC1_cells, tC1_cells,
              if_neg (show ¬ (k % 2 = 0) by omega), if_pos hpm]
            exact (show ¬ ({(0,2)} : Finset Cell) ⊆ {(1,2)} by decide)
          · rw [hgi, hgj, tC1_cells, tC1_cells,
              if_neg (show ¬ (k % 2 = 0) by omega), if_pos hpm]
            exact (show ¬ ({(1,2)} : Finset Cell) ⊆ {(0,2)} by decide)
        · exact absurd (hpk.trans hpm.symm) hpar

theorem tC1_cells_ne_empty (k : Nat) : (tC1 k).cells ≠ ∅ := by
  rw [tC1_cells]
  rcases Nat.mod_two_eq_zero_or_one k with hp | hp
  · rw [if_pos hp]
    decide
  · rw [if_neg (by omega)]
    decide

theorem tC1_card (k : Nat) : (((tC1 k).cells.card : Nat) : Int) = 1 := by
  rw [tC1_cells]
  rcases Nat.mod_two_eq_zero_or_one k with hp | hp
  · rw [if_pos hp]
    decide
  · rw [if_neg (by omega)]
    decide

theorem outer_later_AC1 (n i : Nat) (hi : 1 ≤ i) (hi2 : i < n + 2) :
    outerStep (n + 2) ⟨AC1 n, [], [tC1 n]⟩ i = ⟨AC1 n, [], [tC1 n]⟩ := by
  match i, hi, hi2 with
  | 1, _, hi2 =>
    have hg1 : (AC1 n).knowledge.getD 1 default = ⟨{(0,2)}, -3⟩ := rfl
    rw [outerStep]
    dsimp only
    rw [hg1]
    dsimp only
    rw [if_neg (show ¬ (({(0,2)} : Finset Cell) = ∅) by decide)]
    rw [if_neg (show ¬ ((-3 : Int) = 0 ∨ ((({(0,2)} : Finset Cell).card : Int) = -3)) by decide)]
    exact foldl_fixed _ _ _
      (fun j hj => rp_later_skip n 1 hi2 j (List.mem_range.mp hj) (by omega))
  | (k+2), _, hi2 =>
    have hk : k < n := by omega
    have hgi : (AC1 n).knowledge.getD (k+2) default = tC1 k := KC1_getD_two n k hk
    rw [outerStep]
    dsimp only
    rw [hgi]
    rw [if_neg (tC1_cells_ne_empty k)]
    rw [if_neg (show ¬ ((tC1 k).count = 0 ∨ (((tC1 k).cells.card : Nat) : Int) = (tC1 k).count)
      by rw [tC1_count, tC1_card]; omega)]
    exact foldl_fixed _ _ _
      (fun j hj => rp_later_skip n (k+2) hi2 j (List.mem_range.mp hj) (by omega))

theorem inferPassAux_AC1 (n : Nat) :
    inferPassAux (AC1 n) = ⟨AC1 n, [], [tC1 n]⟩ := by
  have hlen : (AC1 n).knowledge.length = n + 2 := KC1_length n
  rw [inferPassAux, hlen, List.range_succ_eq_map, List.foldl_cons, outer0_AC1 n]
  refine foldl_fixed _ _ _ (fun x hx => ?_)
  obtain ⟨j, hj, rfl⟩ := List.mem_map.mp hx
  exact outer_later_AC1 n (j+1) (by omega) (by have := List.mem_range.mp hj; omega)

theorem inferPass_AC1 (n : Nat) : inferPass (AC1 n) = (AC1 n, [tC1 n]) := by
  rw [inferPass, inferPassAux_AC1 n]
  rfl

theorem AC1_step (n : Nat) :
    { AC1 n with knowledge := (AC1 n).knowledge ++ [tC1 n] } = AC1 (n + 1) := by
  have h : KC1 n ++ [tC1 n] = KC1 (n + 1) := by
    simp [KC1, List.range_succ]
  exact congrArg
    (fun k => AIState.mk 2 3 {(0,0)} {(0,1), (1,0), (1,1)} {(0,0)} k 5) h

theorem loopO_AC1 (fuel : Nat) : ∀ n : Nat,
    AIState.add_knowledge_loopO fuel (AC1 n) = none := by
  induction fuel with
  | zero => intro n; rfl
  | succ f ih =>
    intro n
    rw [AIState.add_knowledge_loopO, inferPass_AC1 n]
    dsimp only
    rw [if_neg (by simp)]
    rw [AC1_step n]
    exact ih (n + 1)

/-- C1 fails on the code: the propagation loop triggered by a single
`add_knowledge` call need not terminate at all, let alone within
grid-size-many passes. `stC1` is an agent state whose two sentences both
satisfy the constraint invariant `0 ≤ count ≤ |cells|`, the observation
`((0,0), 3)` is the true neighbouring-mine count of the in-grid non-mine
cell `(0,0)` on the real board `bC1`, and the loop the call triggers never
breaks out: `add_knowledge_loopO` returns `none` for every fuel. -/
theorem C1_counterexample :
    (∀ st ∈ stC1.knowledge, 0 ≤ st.count ∧ st.count ≤ (st.cells.card : Int)) ∧
    bC1.Wf ∧ bC1.inGrid (0,0) ∧ (0,0) ∉ bC1.mines ∧ (3 : Int) = bC1.nearby_mines (0,0) ∧
    ∀ fuel : Nat, AIState.add_knowledge_loopO fuel (stC1.add_knowledge_base (0,0) 3) = none :=
  ⟨by decide, by decide, by decide, by decide, by decide,
   fun fuel => by rw [base_C1]; exact loopO_AC1 fuel 0⟩

/-- On any consistently-played game, every sentence the agent ever stores
satisfies the constraint invariant `0 ≤ count ≤ |cells|`: the diverging
2×3 scenario above needs knowledge that no single real board produced. -/
theorem knowledge_counts_in_range (b : Board) (fuel : Nat) (tr : List (Cell × Int))
    (hcons : b.consistentTrace tr) :
    ∀ st ∈ (AIState.runTrace fuel (AIState.init b.height b.width) tr).knowledge,
      0 ≤ st.count ∧ st.count ≤ (st.cells.card : Int) := by
  intro st hst
  have h6 := (Sound_runTrace b fuel tr _ (Sound_init b) hcons).2.2.2.2.2 st hst
  rw [Sentence.TrueOn] at h6
  constructor
  · rw [← h6]
    positivity
  · rw [← h6]
    exact_mod_cast Finset.card_filter_le _ _
